import Mathlib

/-!
Verification model of the OrderTradeBook repository: a single-threaded limit
order book (src/src/orderBook.cpp together with the Order / OrderList /
ObjectPool headers).  The C++ state is embedded functionally:

* an `Order` is the plain record from Order.h; the intrusive `prev_`/`next_`
  pointers of a node are represented by the position of the order inside the
  list that models its `OrderList` level;
* the two `std::map`s of the book become association lists of
  `(price, level)` pairs kept in iteration order of the C++ maps: `bids` in
  strictly descending price order (`std::greater`), `asks` in strictly
  ascending price order (`std::less`).  `std::map` never stores two entries
  with one key, and the book never stores an empty level; both facts are
  proved below as invariants of every reachable book;
* the `orders_` ID index maps each id to a pointer at the unique node holding
  that order, so the index is exactly determined by the two sides: an id is
  indexed iff some level contains an order carrying it.  The model therefore
  derives index lookups (`containsId`, `findOrder`) from the sides; the
  uniqueness invariant proved below shows the derived lookup returns the one
  order the C++ index points at;
* the `ObjectPool` hands out one slot per resting order and gets it back
  exactly when the order leaves the index and its level, so the number of
  acquired slots at a quiescent moment equals `Size`.  `acquire` on a full
  pool throws (fatal per the spec), which leaves the book unchanged; the
  model returns the unchanged book in that branch;
* `Quantity` is `std::uint32_t`.  Quantities are modeled as `Nat`; the one
  place the C++ arithmetic can wrap, the `std::accumulate` in
  `GetOrderInfos`, reduces modulo `2 ^ 32` exactly as the unsigned addition
  does.  `Order::Fill` subtracts only after checking `q ≤ remaining`, so its
  subtraction never wraps.  `Price` is `std::int32_t`, modeled as `Int`
  (no arithmetic is performed on prices, only comparisons).
-/

namespace OrderTradeBook

/-- OrderType from Types.h. -/
inductive OrderType where
  | GoodTillCancel
  | FillAndKill
deriving DecidableEq

/-- Side from Types.h. -/
inductive Side where
  | Buy
  | Sell
deriving DecidableEq

/-- Price = std::int32_t (ticks); only compared, never added. -/
abbrev Price := Int

/-- Quantity = std::uint32_t, modeled as Nat; see the header comment. -/
abbrev Quantity := Nat

/-- OrderId = std::uint64_t. -/
abbrev OrderId := Nat

/-- Modulus of the 32-bit unsigned Quantity arithmetic. -/
def quantityModulus : Nat := 2 ^ 32

/-- Order from Order.h: immutable identity plus the mutable remaining
quantity.  The intrusive list pointers are represented by list position. -/
structure Order where
  orderType : OrderType
  orderId : OrderId
  side : Side
  price : Price
  initialQuantity : Quantity
  remainingQuantity : Quantity
deriving DecidableEq

/-- Order::IsFilled. -/
def Order.IsFilled (o : Order) : Bool := o.remainingQuantity == 0

/-- Order::Fill.  The C++ member throws std::logic_error when
quantity > remaining (modeled by `none`), otherwise decrements
remainingQuantity. -/
def Order.Fill (o : Order) (quantity : Quantity) : Option Order :=
  if o.remainingQuantity < quantity then none
  else some { o with remainingQuantity := o.remainingQuantity - quantity }

/-- TradeInfo from OrderBook.h. -/
structure TradeInfo where
  orderId : OrderId
  price : Price
  quantity : Quantity
deriving DecidableEq

/-- Trade from OrderBook.h: a bid leg and an ask leg. -/
structure Trade where
  bidTrade : TradeInfo
  askTrade : TradeInfo
deriving DecidableEq

abbrev Trades := List Trade

/-- One price level: the map key together with the OrderList at that price
(front of the FIFO = head of the list, push_back appends at the tail). -/
abbrev Level := Price × List Order

/-- LevelInfo from OrderBook.h. -/
structure LevelInfo where
  price : Price
  quantity : Quantity
deriving DecidableEq

/-- OrderBookLevelInfos from OrderBook.h. -/
structure OrderBookLevelInfos where
  bids : List LevelInfo
  asks : List LevelInfo
deriving DecidableEq

/-- The OrderBook state: bids_ (descending by price) and asks_ (ascending by
price).  The orders_ index and the pool occupancy are derived; see the
header comment. -/
structure OrderBook where
  bids : List Level
  asks : List Level
deriving DecidableEq

/-- ObjectPool capacity used by OrderBook: orderPool_{ 1000000 }. -/
def poolCapacity : Nat := 1000000

/-- All orders stored on a list of levels, in iteration order. -/
def ordersOf (levels : List Level) : List Order := levels.flatMap (·.2)

/-- The prices of a list of levels, in iteration order (the map keys). -/
def pricesOf (levels : List Level) : List Price := levels.map Prod.fst

/-- Every order reachable from the book (both sides); the domain of the
orders_ index. -/
def OrderBook.allOrders (b : OrderBook) : List Order :=
  ordersOf b.bids ++ ordersOf b.asks

/-- orders_.contains(orderId), derived from the sides (header comment). -/
def OrderBook.containsId (b : OrderBook) (orderId : OrderId) : Bool :=
  b.allOrders.any (fun o => o.orderId == orderId)

/-- orders_.size(). -/
def OrderBook.Size (b : OrderBook) : Nat := b.allOrders.length

/-- OrderBook::CanMatch. -/
def OrderBook.CanMatch (b : OrderBook) (side : Side) (price : Price) : Bool :=
  match side with
  | Side.Buy =>
    match b.asks with
    | [] => false
    | (bestAsk, _) :: _ => decide (bestAsk ≤ price)
  | Side.Sell =>
    match b.bids with
    | [] => false
    | (bestBid, _) :: _ => decide (price ≤ bestBid)

/-- First order with the given id on a list of levels (the node the orders_
index points at; unique by the id-uniqueness invariant). -/
def findInLevels (levels : List Level) (orderId : OrderId) : Option Order :=
  match levels with
  | [] => none
  | (_, l) :: rest =>
    match l.find? (fun o => o.orderId == orderId) with
    | some o => some o
    | none => findInLevels rest orderId

/-- orders_.at(orderId): the order the ID index resolves to, derived by
scanning both sides (the bid side first). -/
def OrderBook.findOrder (b : OrderBook) (orderId : OrderId) : Option Order :=
  match findInLevels b.bids orderId with
  | some o => some o
  | none => findInLevels b.asks orderId

/-- OrderList::remove of the node with the given id inside the level at
price, erasing the level when it becomes empty (the map erase in
CancelOrder).  `eraseP` removes the one node the index pointed at. -/
def removeFromLevels (levels : List Level) (price : Price) (orderId : OrderId) :
    List Level :=
  match levels with
  | [] => []
  | (p, l) :: rest =>
    if p = price then
      if (l.eraseP (fun o => o.orderId == orderId)).isEmpty then rest
      else (p, l.eraseP (fun o => o.orderId == orderId)) :: rest
    else (p, l) :: removeFromLevels rest price orderId

/-- OrderBook::CancelOrder. -/
def OrderBook.CancelOrder (b : OrderBook) (orderId : OrderId) : OrderBook :=
  match b.findOrder orderId with
  | none => b
  | some o =>
    if o.side = Side.Sell then
      { b with asks := removeFromLevels b.asks o.price orderId }
    else
      { b with bids := removeFromLevels b.bids o.price orderId }

/-- bids_[price].push_back(order): find the level in the descending map,
creating it at its sorted position when absent, and append at the tail. -/
def insertBid (levels : List Level) (o : Order) : List Level :=
  match levels with
  | [] => [(o.price, [o])]
  | (p, l) :: rest =>
    if p < o.price then (o.price, [o]) :: (p, l) :: rest
    else if p = o.price then (p, l ++ [o]) :: rest
    else (p, l) :: insertBid rest o

/-- asks_[price].push_back(order): the ascending-map counterpart. -/
def insertAsk (levels : List Level) (o : Order) : List Level :=
  match levels with
  | [] => [(o.price, [o])]
  | (p, l) :: rest =>
    if o.price < p then (o.price, [o]) :: (p, l) :: rest
    else if p = o.price then (p, l ++ [o]) :: rest
    else (p, l) :: insertAsk rest o

/-- The insertion step of AddOrder (lines 306-312): append the new order to
the FIFO at its price on its side. -/
def insertOrder (b : OrderBook) (o : Order) : OrderBook :=
  if o.side = Side.Buy then { b with bids := insertBid b.bids o }
  else { b with asks := insertAsk b.asks o }

/-- One iteration of the inner while-loop body of OrderBook::MatchOrders
(lines 234-257): take the two front orders, trade the minimum of the two
remainders, pop whichever order filled, and record the trade from each
order's own id and limit price.  quantity ≤ both remainders, so Order.Fill
returns some here (theorem for claim C8); the subtraction is its body. -/
def matchStep (bid ask : Order) (restB restA : List Order) :
    (List Order × List Order) × Trade :=
  let quantity := min bid.remainingQuantity ask.remainingQuantity
  let bidF : Order := { bid with remainingQuantity := bid.remainingQuantity - quantity }
  let askF : Order := { ask with remainingQuantity := ask.remainingQuantity - quantity }
  ((if bidF.IsFilled then restB else bidF :: restB,
    if askF.IsFilled then restA else askF :: restA),
   ⟨⟨bid.orderId, bid.price, quantity⟩, ⟨ask.orderId, ask.price, quantity⟩⟩)

/-- The inner while-loop of OrderBook::MatchOrders on the two best levels:
run matchStep while both levels are non-empty, stopping as soon as either
level empties.  The C++ loop terminates because every iteration pops at
least one order; the recursion runs on an explicit bound that the caller
sets to the total number of orders, which is never exhausted (each
productive step consumes at least one order). -/
def matchInnerF : Nat → List Order → List Order → List Order × List Order × Trades
  | _, [], al => ([], al, [])
  | _, bl, [] => (bl, [], [])
  | 0, bl, al => (bl, al, [])
  | fuel + 1, bid :: restB, ask :: restA =>
    let s := matchStep bid ask restB restA
    if s.1.1.isEmpty || s.1.2.isEmpty then (s.1.1, s.1.2, [s.2])
    else
      let r := matchInnerF fuel s.1.1 s.1.2
      (r.1, r.2.1, s.2 :: r.2.2)

/-- The inner loop entered with exactly enough budget. -/
def matchInner (bl al : List Order) : List Order × List Order × Trades :=
  matchInnerF (bl.length + al.length) bl al

/-- The outer while(true) loop of OrderBook::MatchOrders: stop when a side is
empty or the best prices no longer cross, otherwise run the inner loop on
the two best levels, erase a level that was emptied, and repeat.  A stored
empty level would make the C++ loop spin forever (the inner while would not
run); reachable books never store one (theorem on Inv below), and the model
returns the state unchanged there.  Each productive pass erases at least
one level, so the recursion runs on the number of levels. -/
def matchOuterF : Nat → List Level → List Level → List Level × List Level × Trades
  | _, [], asks => ([], asks, [])
  | _, bids, [] => (bids, [], [])
  | 0, bids, asks => (bids, asks, [])
  | fuel + 1, (bidPrice, bl) :: restBids, (askPrice, al) :: restAsks =>
    if bidPrice < askPrice then ((bidPrice, bl) :: restBids, (askPrice, al) :: restAsks, [])
    else if bl.isEmpty || al.isEmpty then
      ((bidPrice, bl) :: restBids, (askPrice, al) :: restAsks, [])
    else
      let r := matchInner bl al
      let bids' := if r.1.isEmpty then restBids else (bidPrice, r.1) :: restBids
      let asks' := if r.2.1.isEmpty then restAsks else (askPrice, r.2.1) :: restAsks
      let rr := matchOuterF fuel bids' asks'
      (rr.1, rr.2.1, r.2.2 ++ rr.2.2)

/-- The outer loop entered with exactly enough budget. -/
def matchOuterLoop (bids asks : List Level) : List Level × List Level × Trades :=
  matchOuterF (bids.length + asks.length) bids asks

/-- Lines 269-275 of MatchOrders: if the best bid level's front order is a
FillAndKill, cancel it. -/
def fakSweepBids (b : OrderBook) : OrderBook :=
  match b.bids with
  | (_, o :: _) :: _ =>
    if o.orderType = OrderType.FillAndKill then b.CancelOrder o.orderId else b
  | _ => b

/-- Lines 276-282 of MatchOrders: the ask-side counterpart. -/
def fakSweepAsks (b : OrderBook) : OrderBook :=
  match b.asks with
  | (_, o :: _) :: _ =>
    if o.orderType = OrderType.FillAndKill then b.CancelOrder o.orderId else b
  | _ => b

/-- OrderBook::MatchOrders: the outer loop, then the FillAndKill sweep of the
best bid front and then of the best ask front; returns the trades the loop
emitted. -/
def OrderBook.MatchOrders (b : OrderBook) : OrderBook × Trades :=
  let r := matchOuterLoop b.bids b.asks
  let b1 : OrderBook := ⟨r.1, r.2.1⟩
  (fakSweepAsks (fakSweepBids b1), r.2.2)

/-- OrderBook::AddOrder.  Branches in source order: duplicate id; FillAndKill
that cannot match; pool acquire (throws on a full pool: the book is
unchanged at the throw point and the process dies, modeled as returning the
unchanged book); insert into the side FIFO; index; MatchOrders. -/
def OrderBook.AddOrder (b : OrderBook) (orderType : OrderType) (orderId : OrderId)
    (side : Side) (price : Price) (quantity : Quantity) : OrderBook × Trades :=
  if b.containsId orderId then (b, [])
  else if orderType = OrderType.FillAndKill ∧ b.CanMatch side price = false then (b, [])
  else if poolCapacity ≤ b.Size then (b, [])
  else
    (insertOrder b ⟨orderType, orderId, side, price, quantity, quantity⟩).MatchOrders

/-- OrderBook::MatchOrder (the modify operation): no-op on an unknown id,
otherwise cancel and re-submit with the preserved type. -/
def OrderBook.MatchOrder (b : OrderBook) (orderId : OrderId) (side : Side)
    (price : Price) (quantity : Quantity) : OrderBook × Trades :=
  match b.findOrder orderId with
  | none => (b, [])
  | some existingOrder =>
    (b.CancelOrder orderId).AddOrder existingOrder.orderType orderId side price quantity

/-- The std::accumulate of GetOrderInfos: summing remainders in Quantity
(std::uint32_t), which wraps modulo 2^32. -/
def levelQuantity (l : List Order) : Quantity :=
  l.foldl (fun runningSum o => (runningSum + o.remainingQuantity) % quantityModulus) 0

/-- OrderBook::GetOrderInfos: one LevelInfo per stored level, in map
iteration order. -/
def OrderBook.GetOrderInfos (b : OrderBook) : OrderBookLevelInfos :=
  ⟨b.bids.map (fun pl => ⟨pl.1, levelQuantity pl.2⟩),
   b.asks.map (fun pl => ⟨pl.1, levelQuantity pl.2⟩)⟩

/-- The public operations of the book (section 6 of the spec). -/
inductive Op where
  | add (orderType : OrderType) (orderId : OrderId) (side : Side) (price : Price)
      (quantity : Quantity)
  | cancel (orderId : OrderId)
  | modify (orderId : OrderId) (side : Side) (price : Price) (quantity : Quantity)

/-- The state transition of one public operation. -/
def applyOp (b : OrderBook) (op : Op) : OrderBook :=
  match op with
  | Op.add t id s p q => (b.AddOrder t id s p q).1
  | Op.cancel id => b.CancelOrder id
  | Op.modify id s p q => (b.MatchOrder id s p q).1

/-- A freshly constructed OrderBook. -/
def emptyBook : OrderBook := ⟨[], []⟩

/-- The book after a sequence of public operations from construction. -/
def runOps (ops : List Op) : OrderBook := ops.foldl applyOp emptyBook

/-- The quiescent states: every book some operation sequence can produce. -/
inductive Reachable : OrderBook → Prop where
  | empty : Reachable emptyBook
  | step (b : OrderBook) (op : Op) : Reachable b → Reachable (applyOp b op)

/-! Invariant predicates on book states.  These express the well-formedness
facts section 8 of the spec lists, as properties of the model state; the
theorems below establish them for every reachable book. -/

/-- How an order evolves while it rests: everything but the remaining
quantity is frozen, the remaining quantity only decreases, and it can be 0
afterwards only if it was 0 before (an order filled down to 0 is removed on
the spot, never kept). -/
def OrderLE (o' o : Order) : Prop :=
  o'.orderType = o.orderType ∧ o'.orderId = o.orderId ∧ o'.side = o.side ∧
  o'.price = o.price ∧ o'.initialQuantity = o.initialQuantity ∧
  o'.remainingQuantity ≤ o.remainingQuantity ∧
  (o'.remainingQuantity = 0 → o.remainingQuantity = 0)

theorem OrderLE.refl (o : Order) : OrderLE o o :=
  ⟨rfl, rfl, rfl, rfl, rfl, Nat.le_refl _, fun h => h⟩

theorem OrderLE.trans {o1 o2 o3 : Order} (h12 : OrderLE o1 o2) (h23 : OrderLE o2 o3) :
    OrderLE o1 o3 := by
  obtain ⟨a1, b1, c1, d1, e1, f1, g1⟩ := h12
  obtain ⟨a2, b2, c2, d2, e2, f2, g2⟩ := h23
  exact ⟨a1.trans a2, b1.trans b2, c1.trans c2, d1.trans d2, e1.trans e2,
    f1.trans f2, fun h => g2 (g1 h)⟩

/-- Key order of std::map<Price, _, std::greater<Price>>. -/
def sortedDesc (ls : List Level) : Prop := (pricesOf ls).Pairwise (fun a b => b < a)

/-- Key order of std::map<Price, _, std::less<Price>>. -/
def sortedAsc (ls : List Level) : Prop := (pricesOf ls).Pairwise (fun a b => a < b)

/-- No stored level is empty (levels are erased as soon as they empty). -/
def levelsNe (ls : List Level) : Prop := ∀ pl ∈ ls, pl.2 ≠ []

/-- Every order sits in the FIFO of its own side and price. -/
def coherent (s : Side) (ls : List Level) : Prop :=
  ∀ pl ∈ ls, ∀ o ∈ pl.2, o.side = s ∧ o.price = pl.1

/-- The ids stored on a list of levels, in iteration order. -/
def idsOf (ls : List Level) : List OrderId := (ordersOf ls).map Order.orderId

/-- Best bid strictly below best ask whenever both sides are non-empty. -/
def noCrossSides (bids asks : List Level) : Prop :=
  match bids, asks with
  | (bp, _) :: _, (ap, _) :: _ => bp < ap
  | _, _ => True

/-- The book invariant at quiescent moments. -/
structure Inv (b : OrderBook) : Prop where
  sortedB : sortedDesc b.bids
  sortedA : sortedAsc b.asks
  neB : levelsNe b.bids
  neA : levelsNe b.asks
  cohB : coherent Side.Buy b.bids
  cohA : coherent Side.Sell b.asks
  nodup : (idsOf b.bids ++ idsOf b.asks).Nodup
  cross : noCrossSides b.bids b.asks
  gtc : ∀ o ∈ b.allOrders, o.orderType = OrderType.GoodTillCancel
  zero : ∀ o ∈ b.allOrders, o.remainingQuantity = 0 → o.initialQuantity = 0

/-! Basic lemmas about the derived views. -/

@[simp] theorem ordersOf_nil : ordersOf [] = [] := rfl

@[simp] theorem ordersOf_cons (pl : Level) (rest : List Level) :
    ordersOf (pl :: rest) = pl.2 ++ ordersOf rest := by
  simp [ordersOf]

@[simp] theorem pricesOf_nil : pricesOf [] = [] := rfl

@[simp] theorem pricesOf_cons (pl : Level) (rest : List Level) :
    pricesOf (pl :: rest) = pl.1 :: pricesOf rest := rfl

@[simp] theorem idsOf_nil : idsOf [] = [] := rfl

@[simp] theorem idsOf_cons (pl : Level) (rest : List Level) :
    idsOf (pl :: rest) = pl.2.map Order.orderId ++ idsOf rest := by
  simp [idsOf]

theorem mem_ordersOf {o : Order} {ls : List Level} :
    o ∈ ordersOf ls ↔ ∃ pl ∈ ls, o ∈ pl.2 := by
  simp [ordersOf]

@[simp] theorem Order.IsFilled_iff (o : Order) :
    o.IsFilled = true ↔ o.remainingQuantity = 0 := by
  simp [Order.IsFilled]

/-! Lemmas about one inner-loop iteration (matchStep). -/

theorem matchStep_bids (bid ask : Order) (restB restA : List Order) :
    (matchStep bid ask restB restA).1.1 = restB ∨
    ((matchStep bid ask restB restA).1.1 =
      { bid with remainingQuantity :=
          bid.remainingQuantity - min bid.remainingQuantity ask.remainingQuantity } :: restB ∧
      bid.remainingQuantity - min bid.remainingQuantity ask.remainingQuantity ≠ 0) := by
  by_cases hb : bid.remainingQuantity - min bid.remainingQuantity ask.remainingQuantity = 0
  · left; simp [matchStep, Order.IsFilled, hb]
  · right; exact ⟨by simp [matchStep, Order.IsFilled, hb], hb⟩

theorem matchStep_asks (bid ask : Order) (restB restA : List Order) :
    (matchStep bid ask restB restA).1.2 = restA ∨
    ((matchStep bid ask restB restA).1.2 =
      { ask with remainingQuantity :=
          ask.remainingQuantity - min bid.remainingQuantity ask.remainingQuantity } :: restA ∧
      ask.remainingQuantity - min bid.remainingQuantity ask.remainingQuantity ≠ 0) := by
  by_cases ha : ask.remainingQuantity - min bid.remainingQuantity ask.remainingQuantity = 0
  · left; simp [matchStep, Order.IsFilled, ha]
  · right; exact ⟨by simp [matchStep, Order.IsFilled, ha], ha⟩

theorem matchStep_trade (bid ask : Order) (restB restA : List Order) :
    (matchStep bid ask restB restA).2 =
      ⟨⟨bid.orderId, bid.price, min bid.remainingQuantity ask.remainingQuantity⟩,
       ⟨ask.orderId, ask.price, min bid.remainingQuantity ask.remainingQuantity⟩⟩ := rfl

theorem matchStep_pop (bid ask : Order) (restB restA : List Order) :
    (matchStep bid ask restB restA).1.1 = restB ∨
    (matchStep bid ask restB restA).1.2 = restA := by
  rcases Nat.le_total bid.remainingQuantity ask.remainingQuantity with h | h
  · have hz : bid.remainingQuantity - min bid.remainingQuantity ask.remainingQuantity = 0 := by
      rw [Nat.min_eq_left h]; exact Nat.sub_self _
    left; simp [matchStep, Order.IsFilled, hz]
  · have hz : ask.remainingQuantity - min bid.remainingQuantity ask.remainingQuantity = 0 := by
      rw [Nat.min_eq_right h]; exact Nat.sub_self _
    right; simp [matchStep, Order.IsFilled, hz]

theorem matchStep_track_bid (bid ask : Order) (restB restA : List Order) :
    ∀ o' ∈ (matchStep bid ask restB restA).1.1, ∃ o ∈ bid :: restB, OrderLE o' o := by
  intro o' ho'
  rcases matchStep_bids bid ask restB restA with h | ⟨h, hne⟩
  · rw [h] at ho'
    exact ⟨o', List.mem_cons_of_mem _ ho', OrderLE.refl o'⟩
  · rw [h] at ho'
    rcases List.mem_cons.mp ho' with rfl | hmem
    · exact ⟨bid, List.mem_cons_self _ _,
        rfl, rfl, rfl, rfl, rfl, Nat.sub_le _ _, fun hz => absurd hz hne⟩
    · exact ⟨o', List.mem_cons_of_mem _ hmem, OrderLE.refl o'⟩

theorem matchStep_track_ask (bid ask : Order) (restB restA : List Order) :
    ∀ o' ∈ (matchStep bid ask restB restA).1.2, ∃ o ∈ ask :: restA, OrderLE o' o := by
  intro o' ho'
  rcases matchStep_asks bid ask restB restA with h | ⟨h, hne⟩
  · rw [h] at ho'
    exact ⟨o', List.mem_cons_of_mem _ ho', OrderLE.refl o'⟩
  · rw [h] at ho'
    rcases List.mem_cons.mp ho' with rfl | hmem
    · exact ⟨ask, List.mem_cons_self _ _,
        rfl, rfl, rfl, rfl, rfl, Nat.sub_le _ _, fun hz => absurd hz hne⟩
    · exact ⟨o', List.mem_cons_of_mem _ hmem, OrderLE.refl o'⟩

theorem matchStep_ids_bid (bid ask : Order) (restB restA : List Order) :
    List.IsSuffix ((matchStep bid ask restB restA).1.1.map Order.orderId)
      ((bid :: restB).map Order.orderId) := by
  rcases matchStep_bids bid ask restB restA with h | ⟨h, _⟩
  · rw [h, List.map_cons]
    exact ⟨[bid.orderId], rfl⟩
  · rw [h]
    simp

theorem matchStep_ids_ask (bid ask : Order) (restB restA : List Order) :
    List.IsSuffix ((matchStep bid ask restB restA).1.2.map Order.orderId)
      ((ask :: restA).map Order.orderId) := by
  rcases matchStep_asks bid ask restB restA with h | ⟨h, _⟩
  · rw [h, List.map_cons]
    exact ⟨[ask.orderId], rfl⟩
  · rw [h]
    simp

theorem matchStep_len (bid ask : Order) (restB restA : List Order) :
    (matchStep bid ask restB restA).1.1.length + (matchStep bid ask restB restA).1.2.length
      ≤ restB.length + restA.length + 1 := by
  have hb : (matchStep bid ask restB restA).1.1.length ≤ restB.length + 1 := by
    rcases matchStep_bids bid ask restB restA with h | ⟨h, _⟩ <;>
      simp [h, List.length_cons]
  have ha : (matchStep bid ask restB restA).1.2.length ≤ restA.length + 1 := by
    rcases matchStep_asks bid ask restB restA with h | ⟨h, _⟩ <;>
      simp [h, List.length_cons]
  rcases matchStep_pop bid ask restB restA with hp | hp <;> rw [hp] <;> omega

/-! Lemmas about the inner loop (matchInnerF). -/

theorem matchInnerF_nil_left (fuel : Nat) (al : List Order) :
    matchInnerF fuel [] al = ([], al, []) := by
  simp [matchInnerF]

theorem matchInnerF_nil_right (fuel : Nat) (bl : List Order) :
    matchInnerF fuel bl [] = (bl, [], []) := by
  cases bl <;> simp [matchInnerF]

theorem matchInnerF_zero (bl al : List Order) :
    matchInnerF 0 bl al = (bl, al, []) := by
  cases bl <;> cases al <;> simp [matchInnerF]

theorem matchInnerF_track (fuel : Nat) (bl al : List Order) :
    (∀ o' ∈ (matchInnerF fuel bl al).1, ∃ o ∈ bl, OrderLE o' o) ∧
    (∀ o' ∈ (matchInnerF fuel bl al).2.1, ∃ o ∈ al, OrderLE o' o) := by
  induction fuel generalizing bl al with
  | zero =>
    rw [matchInnerF_zero]
    exact ⟨fun o' ho' => ⟨o', ho', OrderLE.refl o'⟩, fun o' ho' => ⟨o', ho', OrderLE.refl o'⟩⟩
  | succ fuel ih =>
    match bl, al with
    | [], al =>
      rw [matchInnerF_nil_left]
      exact ⟨fun o' ho' => (List.not_mem_nil o' ho').elim, fun o' ho' => ⟨o', ho', OrderLE.refl o'⟩⟩
    | bid :: restB, [] =>
      rw [matchInnerF_nil_right]
      exact ⟨fun o' ho' => ⟨o', ho', OrderLE.refl o'⟩, fun o' ho' => (List.not_mem_nil o' ho').elim⟩
    | bid :: restB, ask :: restA =>
      show (∀ o' ∈ (matchInnerF (fuel + 1) (bid :: restB) (ask :: restA)).1, _) ∧ _
      rw [matchInnerF]
      split
      · exact ⟨matchStep_track_bid bid ask restB restA, matchStep_track_ask bid ask restB restA⟩
      · constructor
        · intro o' ho'
          obtain ⟨o1, ho1, hle1⟩ := (ih _ _).1 o' ho'
          obtain ⟨o, ho, hle⟩ := matchStep_track_bid bid ask restB restA o1 ho1
          exact ⟨o, ho, hle1.trans hle⟩
        · intro o' ho'
          obtain ⟨o1, ho1, hle1⟩ := (ih _ _).2 o' ho'
          obtain ⟨o, ho, hle⟩ := matchStep_track_ask bid ask restB restA o1 ho1
          exact ⟨o, ho, hle1.trans hle⟩

theorem matchInnerF_ids (fuel : Nat) (bl al : List Order) :
    List.IsSuffix ((matchInnerF fuel bl al).1.map Order.orderId) (bl.map Order.orderId) ∧
    List.IsSuffix ((matchInnerF fuel bl al).2.1.map Order.orderId) (al.map Order.orderId) := by
  induction fuel generalizing bl al with
  | zero =>
    rw [matchInnerF_zero]
    exact ⟨List.suffix_refl _, List.suffix_refl _⟩
  | succ fuel ih =>
    match bl, al with
    | [], al =>
      rw [matchInnerF_nil_left]
      exact ⟨List.suffix_refl _, List.suffix_refl _⟩
    | bid :: restB, [] =>
      rw [matchInnerF_nil_right]
      exact ⟨List.suffix_refl _, List.suffix_refl _⟩
    | bid :: restB, ask :: restA =>
      rw [matchInnerF]
      split
      · exact ⟨matchStep_ids_bid bid ask restB restA, matchStep_ids_ask bid ask restB restA⟩
      · exact ⟨(ih _ _).1.trans (matchStep_ids_bid bid ask restB restA),
          (ih _ _).2.trans (matchStep_ids_ask bid ask restB restA)⟩

theorem matchInnerF_emptied (fuel : Nat) (bl al : List Order) (hbl : bl ≠ []) (hal : al ≠ [])
    (hf : bl.length + al.length ≤ fuel) :
    (matchInnerF fuel bl al).1 = [] ∨ (matchInnerF fuel bl al).2.1 = [] := by
  induction fuel generalizing bl al with
  | zero =>
    exact absurd hf (by
      cases bl with
      | nil => exact absurd rfl hbl
      | cons b bs => simp)
  | succ fuel ih =>
    match bl, al with
    | [], al => exact absurd rfl hbl
    | bid :: restB, [] => exact absurd rfl hal
    | bid :: restB, ask :: restA =>
      rw [matchInnerF]
      split
      · next hcond =>
        simp only [Bool.or_eq_true, List.isEmpty_iff] at hcond
        exact hcond
      · next hcond =>
        simp only [Bool.or_eq_true, List.isEmpty_iff] at hcond
        push_neg at hcond
        refine ih _ _ hcond.1 hcond.2 ?_
        have hlen := matchStep_len bid ask restB restA
        have hlc : (bid :: restB).length + (ask :: restA).length ≤ fuel + 1 := hf
        simp only [List.length_cons] at hlc
        omega

theorem matchInnerF_trades (fuel : Nat) (bl al : List Order) (bp ap : Price)
    (hb : ∀ o ∈ bl, o.price = bp) (ha : ∀ o ∈ al, o.price = ap) :
    ∀ t ∈ (matchInnerF fuel bl al).2.2, t.bidTrade.price = bp ∧ t.askTrade.price = ap := by
  induction fuel generalizing bl al with
  | zero =>
    rw [matchInnerF_zero]
    intro t ht
    exact (List.not_mem_nil t ht).elim
  | succ fuel ih =>
    match bl, al with
    | [], al =>
      rw [matchInnerF_nil_left]
      intro t ht
      exact (List.not_mem_nil t ht).elim
    | bid :: restB, [] =>
      rw [matchInnerF_nil_right]
      intro t ht
      exact (List.not_mem_nil t ht).elim
    | bid :: restB, ask :: restA =>
      have hstep : (matchStep bid ask restB restA).2.bidTrade.price = bp ∧
          (matchStep bid ask restB restA).2.askTrade.price = ap := by
        rw [matchStep_trade]
        exact ⟨hb bid (List.mem_cons_self _ _), ha ask (List.mem_cons_self _ _)⟩
      rw [matchInnerF]
      split
      · intro t ht
        rcases List.mem_singleton.mp ht with rfl
        exact hstep
      · intro t ht
        rcases List.mem_cons.mp ht with rfl | hmem
        · exact hstep
        · refine ih _ _ ?_ ?_ t hmem
          · intro o ho
            obtain ⟨o0, ho0, hle⟩ := matchStep_track_bid bid ask restB restA o ho
            rw [hle.2.2.2.1]
            exact hb o0 ho0
          · intro o ho
            obtain ⟨o0, ho0, hle⟩ := matchStep_track_ask bid ask restB restA o ho
            rw [hle.2.2.2.1]
            exact ha o0 ho0

/-! Lemmas about the outer loop (matchOuterF). -/

/-- What holds of the two sides and the trade list when the outer loop of
MatchOrders returns, relative to the sides it started from. -/
structure OuterPost (bids asks : List Level) (r : List Level × List Level × Trades) : Prop where
  priceSubB : List.Sublist (pricesOf r.1) (pricesOf bids)
  priceSubA : List.Sublist (pricesOf r.2.1) (pricesOf asks)
  neB : levelsNe r.1
  neA : levelsNe r.2.1
  cohB : coherent Side.Buy r.1
  cohA : coherent Side.Sell r.2.1
  idsB : List.Sublist (idsOf r.1) (idsOf bids)
  idsA : List.Sublist (idsOf r.2.1) (idsOf asks)
  trackB : ∀ o' ∈ ordersOf r.1, ∃ o ∈ ordersOf bids, OrderLE o' o
  trackA : ∀ o' ∈ ordersOf r.2.1, ∃ o ∈ ordersOf asks, OrderLE o' o
  cross : noCrossSides r.1 r.2.1
  trades : ∀ t ∈ r.2.2, t.askTrade.price ≤ t.bidTrade.price

/-- OuterPost when the loop returns its input unchanged and the input is not
crossed (an empty side, or best prices that do not cross). -/
theorem OuterPost.id_of_noCross (bids asks : List Level) (hne1 : levelsNe bids)
    (hne2 : levelsNe asks) (hc1 : coherent Side.Buy bids) (hc2 : coherent Side.Sell asks)
    (hcr : noCrossSides bids asks) : OuterPost bids asks (bids, asks, []) where
  priceSubB := List.Sublist.refl _
  priceSubA := List.Sublist.refl _
  neB := hne1
  neA := hne2
  cohB := hc1
  cohA := hc2
  idsB := List.Sublist.refl _
  idsA := List.Sublist.refl _
  trackB := fun o' ho' => ⟨o', ho', OrderLE.refl o'⟩
  trackA := fun o' ho' => ⟨o', ho', OrderLE.refl o'⟩
  cross := hcr
  trades := fun t ht => (List.not_mem_nil t ht).elim

/-- Unfolding of the productive outer-loop iteration. -/
theorem matchOuterF_cons (fuel : Nat) (bidPrice askPrice : Price) (bl al : List Order)
    (restBids restAsks : List Level) (h1 : ¬ bidPrice < askPrice)
    (h2 : bl ≠ []) (h3 : al ≠ []) :
    matchOuterF (fuel + 1) ((bidPrice, bl) :: restBids) ((askPrice, al) :: restAsks) =
      ((matchOuterF fuel
          (if (matchInner bl al).1.isEmpty then restBids
            else (bidPrice, (matchInner bl al).1) :: restBids)
          (if (matchInner bl al).2.1.isEmpty then restAsks
            else (askPrice, (matchInner bl al).2.1) :: restAsks)).1,
       (matchOuterF fuel
          (if (matchInner bl al).1.isEmpty then restBids
            else (bidPrice, (matchInner bl al).1) :: restBids)
          (if (matchInner bl al).2.1.isEmpty then restAsks
            else (askPrice, (matchInner bl al).2.1) :: restAsks)).2.1,
       (matchInner bl al).2.2 ++
         (matchOuterF fuel
            (if (matchInner bl al).1.isEmpty then restBids
              else (bidPrice, (matchInner bl al).1) :: restBids)
            (if (matchInner bl al).2.1.isEmpty then restAsks
              else (askPrice, (matchInner bl al).2.1) :: restAsks)).2.2) := by
  have hb : bl.isEmpty = false := by
    cases bl with
    | nil => exact absurd rfl h2
    | cons x xs => rfl
  have ha : al.isEmpty = false := by
    cases al with
    | nil => exact absurd rfl h3
    | cons x xs => rfl
  simp [matchOuterF, h1, hb, ha]

theorem matchOuterF_nil_left (fuel : Nat) (asks : List Level) :
    matchOuterF fuel [] asks = ([], asks, []) := by
  simp [matchOuterF]

theorem matchOuterF_nil_right (fuel : Nat) (bids : List Level) :
    matchOuterF fuel bids [] = (bids, [], []) := by
  cases bids <;> simp [matchOuterF]

/-- The main preservation theorem for the outer loop. -/
theorem matchOuterF_main (fuel : Nat) (bids asks : List Level)
    (hneB : levelsNe bids) (hneA : levelsNe asks)
    (hcB : coherent Side.Buy bids) (hcA : coherent Side.Sell asks)
    (hf : bids.length + asks.length ≤ fuel) :
    OuterPost bids asks (matchOuterF fuel bids asks) := by
  induction fuel generalizing bids asks with
  | zero =>
    match bids, asks with
    | [], asks =>
      rw [matchOuterF_nil_left]
      exact OuterPost.id_of_noCross _ _ hneB hneA hcB hcA trivial
    | (bp, bl) :: restB, [] =>
      rw [matchOuterF_nil_right]
      exact OuterPost.id_of_noCross _ _ hneB hneA hcB hcA trivial
    | (bp, bl) :: restB, (ap, al) :: restA =>
      exact absurd hf (by simp)
  | succ fuel ih =>
    match bids, asks with
    | [], asks =>
      rw [matchOuterF_nil_left]
      exact OuterPost.id_of_noCross _ _ hneB hneA hcB hcA trivial
    | (bp, bl) :: restB, [] =>
      rw [matchOuterF_nil_right]
      exact OuterPost.id_of_noCross _ _ hneB hneA hcB hcA trivial
    | (bp, bl) :: restBids, (ap, al) :: restAsks =>
      have hblne : bl ≠ [] := hneB (bp, bl) (List.mem_cons_self _ _)
      have halne : al ≠ [] := hneA (ap, al) (List.mem_cons_self _ _)
      by_cases hlt : bp < ap
      · have : matchOuterF (fuel + 1) ((bp, bl) :: restBids) ((ap, al) :: restAsks) =
            ((bp, bl) :: restBids, (ap, al) :: restAsks, []) := by
          simp [matchOuterF, hlt]
        rw [this]
        exact OuterPost.id_of_noCross _ _ hneB hneA hcB hcA hlt
      · rw [matchOuterF_cons fuel bp ap bl al restBids restAsks hlt hblne halne]
        have hblprice : ∀ o ∈ bl, o.price = bp := fun o ho =>
          (hcB (bp, bl) (List.mem_cons_self _ _) o ho).2
        have halprice : ∀ o ∈ al, o.price = ap := fun o ho =>
          (hcA (ap, al) (List.mem_cons_self _ _) o ho).2
        have htrackB := (matchInnerF_track (bl.length + al.length) bl al).1
        have htrackA := (matchInnerF_track (bl.length + al.length) bl al).2
        have hidsB := (matchInnerF_ids (bl.length + al.length) bl al).1
        have hidsA := (matchInnerF_ids (bl.length + al.length) bl al).2
        have hemp := matchInnerF_emptied (bl.length + al.length) bl al hblne halne
          (Nat.le_refl _)
        -- well-formedness of the recursion arguments
        set bids' := if (matchInner bl al).1.isEmpty then restBids
          else (bp, (matchInner bl al).1) :: restBids with hbids'
        set asks' := if (matchInner bl al).2.1.isEmpty then restAsks
          else (ap, (matchInner bl al).2.1) :: restAsks with hasks'
        have hneB' : levelsNe bids' := by
          rw [hbids']
          split
          · exact fun pl hpl => hneB pl (List.mem_cons_of_mem _ hpl)
          · next hcond =>
            intro pl hpl
            rcases List.mem_cons.mp hpl with rfl | hmem
            · simpa [List.isEmpty_iff] using hcond
            · exact hneB pl (List.mem_cons_of_mem _ hmem)
        have hneA' : levelsNe asks' := by
          rw [hasks']
          split
          · exact fun pl hpl => hneA pl (List.mem_cons_of_mem _ hpl)
          · next hcond =>
            intro pl hpl
            rcases List.mem_cons.mp hpl with rfl | hmem
            · simpa [List.isEmpty_iff] using hcond
            · exact hneA pl (List.mem_cons_of_mem _ hmem)
        have hcB' : coherent Side.Buy bids' := by
          rw [hbids']
          split
          · exact fun pl hpl => hcB pl (List.mem_cons_of_mem _ hpl)
          · intro pl hpl
            rcases List.mem_cons.mp hpl with rfl | hmem
            · intro o ho
              obtain ⟨o0, ho0, hle⟩ := htrackB o ho
              have h0 := hcB (bp, bl) (List.mem_cons_self _ _) o0 ho0
              exact ⟨hle.2.2.1.trans h0.1, hle.2.2.2.1.trans h0.2⟩
            · exact hcB pl (List.mem_cons_of_mem _ hmem)
        have hcA' : coherent Side.Sell asks' := by
          rw [hasks']
          split
          · exact fun pl hpl => hcA pl (List.mem_cons_of_mem _ hpl)
          · intro pl hpl
            rcases List.mem_cons.mp hpl with rfl | hmem
            · intro o ho
              obtain ⟨o0, ho0, hle⟩ := htrackA o ho
              have h0 := hcA (ap, al) (List.mem_cons_self _ _) o0 ho0
              exact ⟨hle.2.2.1.trans h0.1, hle.2.2.2.1.trans h0.2⟩
            · exact hcA pl (List.mem_cons_of_mem _ hmem)
        have hf' : bids'.length + asks'.length ≤ fuel := by
          have hlc : (restBids.length + 1) + (restAsks.length + 1) ≤ fuel + 1 := by
            simpa using hf
          have hb1 : bids'.length ≤ restBids.length + 1 := by
            rw [hbids']; split <;> simp
          have ha1 : asks'.length ≤ restAsks.length + 1 := by
            rw [hasks']; split <;> simp
          rcases hemp with h | h
          · have : bids'.length = restBids.length := by
              rw [hbids']
              have : (matchInner bl al).1.isEmpty = true := by
                simpa [List.isEmpty_iff] using h
              rw [if_pos this]
            omega
          · have : asks'.length = restAsks.length := by
              rw [hasks']
              have : (matchInner bl al).2.1.isEmpty = true := by
                simpa [List.isEmpty_iff] using h
              rw [if_pos this]
            omega
        have post := ih bids' asks' hneB' hneA' hcB' hcA' hf'
        -- lift the (bids', asks') relations back to the original sides
        have hpriceB' : List.Sublist (pricesOf bids') (pricesOf ((bp, bl) :: restBids)) := by
          rw [hbids']; split
          · simp only [pricesOf_cons]
            exact List.sublist_cons_self _ _
          · simp only [pricesOf_cons]
            exact List.Sublist.refl _
        have hpriceA' : List.Sublist (pricesOf asks') (pricesOf ((ap, al) :: restAsks)) := by
          rw [hasks']; split
          · simp only [pricesOf_cons]
            exact List.sublist_cons_self _ _
          · simp only [pricesOf_cons]
            exact List.Sublist.refl _
        have hidsB' : List.Sublist (idsOf bids') (idsOf ((bp, bl) :: restBids)) := by
          rw [hbids']; split
          · simp only [idsOf_cons]
            exact List.sublist_append_right _ _
          · simp only [idsOf_cons]
            exact List.Sublist.append hidsB.sublist (List.Sublist.refl _)
        have hidsA' : List.Sublist (idsOf asks') (idsOf ((ap, al) :: restAsks)) := by
          rw [hasks']; split
          · simp only [idsOf_cons]
            exact List.sublist_append_right _ _
          · simp only [idsOf_cons]
            exact List.Sublist.append hidsA.sublist (List.Sublist.refl _)
        have htrackB' : ∀ o' ∈ ordersOf bids', ∃ o ∈ ordersOf ((bp, bl) :: restBids), OrderLE o' o := by
          rw [hbids']
          split
          · intro o' ho'
            exact ⟨o', by simp only [ordersOf_cons]; exact List.mem_append_right _ ho',
              OrderLE.refl o'⟩
          · intro o' ho'
            simp only [ordersOf_cons] at ho' ⊢
            rcases List.mem_append.mp ho' with hmem | hmem
            · obtain ⟨o, ho, hle⟩ := htrackB o' hmem
              exact ⟨o, List.mem_append_left _ ho, hle⟩
            · exact ⟨o', List.mem_append_right _ hmem, OrderLE.refl o'⟩
        have htrackA' : ∀ o' ∈ ordersOf asks', ∃ o ∈ ordersOf ((ap, al) :: restAsks), OrderLE o' o := by
          rw [hasks']
          split
          · intro o' ho'
            exact ⟨o', by simp only [ordersOf_cons]; exact List.mem_append_right _ ho',
              OrderLE.refl o'⟩
          · intro o' ho'
            simp only [ordersOf_cons] at ho' ⊢
            rcases List.mem_append.mp ho' with hmem | hmem
            · obtain ⟨o, ho, hle⟩ := htrackA o' hmem
              exact ⟨o, List.mem_append_left _ ho, hle⟩
            · exact ⟨o', List.mem_append_right _ hmem, OrderLE.refl o'⟩
        refine ⟨post.priceSubB.trans hpriceB', post.priceSubA.trans hpriceA',
          post.neB, post.neA, post.cohB, post.cohA,
          post.idsB.trans hidsB', post.idsA.trans hidsA', ?_, ?_, post.cross, ?_⟩
        · intro o' ho'
          obtain ⟨o1, ho1, hle1⟩ := post.trackB o' ho'
          obtain ⟨o, ho, hle⟩ := htrackB' o1 ho1
          exact ⟨o, ho, hle1.trans hle⟩
        · intro o' ho'
          obtain ⟨o1, ho1, hle1⟩ := post.trackA o' ho'
          obtain ⟨o, ho, hle⟩ := htrackA' o1 ho1
          exact ⟨o, ho, hle1.trans hle⟩
        · intro t ht
          rcases List.mem_append.mp ht with hmem | hmem
          · have := matchInnerF_trades (bl.length + al.length) bl al bp ap hblprice halprice
              t hmem
            rw [this.1, this.2]
            exact le_of_not_lt hlt
          · exact post.trades t hmem

/-! Lemmas about the derived ID index. -/

theorem findInLevels_eq_none_iff (ls : List Level) (orderId : OrderId) :
    findInLevels ls orderId = none ↔ ∀ o ∈ ordersOf ls, o.orderId ≠ orderId := by
  induction ls with
  | nil => simp [findInLevels]
  | cons pl rest ih =>
    obtain ⟨p, l⟩ := pl
    rw [findInLevels]
    cases hfind : l.find? (fun o => o.orderId == orderId) with
    | some o =>
      have hmem := List.mem_of_find?_eq_some hfind
      have hid : o.orderId = orderId := by
        simpa using List.find?_some hfind
      simp only [ordersOf_cons]
      constructor
      · intro h; exact absurd h (by simp)
      · intro h
        exact absurd hid (h o (List.mem_append_left _ hmem))
    | none =>
      have hl : ∀ o ∈ l, o.orderId ≠ orderId := by
        intro o ho
        have := List.find?_eq_none.mp hfind o ho
        simpa using this
      simp only [ordersOf_cons]
      rw [ih]
      constructor
      · intro h o ho
        rcases List.mem_append.mp ho with hm | hm
        · exact hl o hm
        · exact h o hm
      · intro h o ho
        exact h o (List.mem_append_right _ ho)

theorem findInLevels_some {ls : List Level} {orderId : OrderId} {o : Order}
    (h : findInLevels ls orderId = some o) : o ∈ ordersOf ls ∧ o.orderId = orderId := by
  induction ls with
  | nil => simp [findInLevels] at h
  | cons pl rest ih =>
    obtain ⟨p, l⟩ := pl
    rw [findInLevels] at h
    cases hfind : l.find? (fun o => o.orderId == orderId) with
    | some o1 =>
      rw [hfind] at h
      cases h
      refine ⟨?_, by simpa using List.find?_some hfind⟩
      simp only [ordersOf_cons]
      exact List.mem_append_left _ (List.mem_of_find?_eq_some hfind)
    | none =>
      rw [hfind] at h
      obtain ⟨hmem, hid⟩ := ih h
      refine ⟨?_, hid⟩
      simp only [ordersOf_cons]
      exact List.mem_append_right _ hmem

theorem findOrder_eq_none_iff (b : OrderBook) (orderId : OrderId) :
    b.findOrder orderId = none ↔ ∀ o ∈ b.allOrders, o.orderId ≠ orderId := by
  rw [OrderBook.findOrder]
  cases hb : findInLevels b.bids orderId with
  | some o =>
    obtain ⟨hmem, hid⟩ := findInLevels_some hb
    simp only [OrderBook.allOrders]
    constructor
    · intro h; exact absurd h (by simp)
    · intro h
      exact absurd hid (h o (List.mem_append_left _ hmem))
  | none =>
    have hbids := (findInLevels_eq_none_iff b.bids orderId).mp hb
    simp only [OrderBook.allOrders]
    rw [findInLevels_eq_none_iff]
    constructor
    · intro h o ho
      rcases List.mem_append.mp ho with hm | hm
      · exact hbids o hm
      · exact h o hm
    · intro h o ho
      exact h o (List.mem_append_right _ ho)

theorem findOrder_some {b : OrderBook} {orderId : OrderId} {o : Order}
    (h : b.findOrder orderId = some o) : o ∈ b.allOrders ∧ o.orderId = orderId := by
  rw [OrderBook.findOrder] at h
  cases hb : findInLevels b.bids orderId with
  | some o1 =>
    rw [hb] at h
    cases h
    obtain ⟨hmem, hid⟩ := findInLevels_some hb
    exact ⟨List.mem_append_left _ hmem, hid⟩
  | none =>
    rw [hb] at h
    obtain ⟨hmem, hid⟩ := findInLevels_some h
    exact ⟨List.mem_append_right _ hmem, hid⟩

theorem containsId_iff (b : OrderBook) (orderId : OrderId) :
    b.containsId orderId = true ↔ ∃ o ∈ b.allOrders, o.orderId = orderId := by
  simp [OrderBook.containsId, List.any_eq_true]

theorem containsId_false_iff (b : OrderBook) (orderId : OrderId) :
    b.containsId orderId = false ↔ ∀ o ∈ b.allOrders, o.orderId ≠ orderId := by
  rw [← Bool.not_eq_true, containsId_iff]
  push_neg
  rfl

theorem findOrder_none_of_not_contains {b : OrderBook} {orderId : OrderId}
    (h : b.containsId orderId = false) : b.findOrder orderId = none :=
  (findOrder_eq_none_iff b orderId).mpr ((containsId_false_iff b orderId).mp h)

/-! Lemmas about removeFromLevels and CancelOrder. -/

theorem removeFromLevels_prices (ls : List Level) (price : Price) (orderId : OrderId) :
    List.Sublist (pricesOf (removeFromLevels ls price orderId)) (pricesOf ls) := by
  induction ls with
  | nil => exact List.Sublist.refl _
  | cons pl rest ih =>
    obtain ⟨p, l⟩ := pl
    rw [removeFromLevels]
    split
    · split
      · simp only [pricesOf_cons]
        exact List.sublist_cons_self _ _
      · simp only [pricesOf_cons]
        exact List.Sublist.refl _
    · simp only [pricesOf_cons]
      exact List.Sublist.cons₂ _ ih

theorem removeFromLevels_orders (ls : List Level) (price : Price) (orderId : OrderId) :
    List.Sublist (ordersOf (removeFromLevels ls price orderId)) (ordersOf ls) := by
  induction ls with
  | nil => exact List.Sublist.refl _
  | cons pl rest ih =>
    obtain ⟨p, l⟩ := pl
    rw [removeFromLevels]
    split
    · split
      · simp only [ordersOf_cons]
        exact List.sublist_append_right _ _
      · simp only [ordersOf_cons]
        exact List.Sublist.append (List.eraseP_sublist _) (List.Sublist.refl _)
    · simp only [ordersOf_cons]
      exact List.Sublist.append (List.Sublist.refl _) ih

theorem removeFromLevels_ids (ls : List Level) (price : Price) (orderId : OrderId) :
    List.Sublist (idsOf (removeFromLevels ls price orderId)) (idsOf ls) :=
  (removeFromLevels_orders ls price orderId).map _

theorem removeFromLevels_ne (ls : List Level) (price : Price) (orderId : OrderId)
    (h : levelsNe ls) : levelsNe (removeFromLevels ls price orderId) := by
  induction ls with
  | nil => exact h
  | cons pl rest ih =>
    obtain ⟨p, l⟩ := pl
    rw [removeFromLevels]
    split
    · split
      · exact fun pl2 hpl2 => h pl2 (List.mem_cons_of_mem _ hpl2)
      · next hcond =>
        intro pl2 hpl2
        rcases List.mem_cons.mp hpl2 with rfl | hmem
        · simpa [List.isEmpty_iff] using hcond
        · exact h pl2 (List.mem_cons_of_mem _ hmem)
    · intro pl2 hpl2
      rcases List.mem_cons.mp hpl2 with rfl | hmem
      · exact h (p, l) (List.mem_cons_self _ _)
      · exact ih (fun pl3 hpl3 => h pl3 (List.mem_cons_of_mem _ hpl3)) pl2 hmem

theorem removeFromLevels_coherent (s : Side) (ls : List Level) (price : Price)
    (orderId : OrderId) (h : coherent s ls) : coherent s (removeFromLevels ls price orderId) := by
  induction ls with
  | nil => exact h
  | cons pl rest ih =>
    obtain ⟨p, l⟩ := pl
    rw [removeFromLevels]
    split
    · split
      · exact fun pl2 hpl2 => h pl2 (List.mem_cons_of_mem _ hpl2)
      · intro pl2 hpl2
        rcases List.mem_cons.mp hpl2 with rfl | hmem
        · intro o ho
          exact h (p, l) (List.mem_cons_self _ _) o ((List.eraseP_sublist _).subset ho)
        · exact h pl2 (List.mem_cons_of_mem _ hmem)
    · intro pl2 hpl2
      rcases List.mem_cons.mp hpl2 with rfl | hmem
      · exact h (p, l) (List.mem_cons_self _ _)
      · exact ih (fun pl3 hpl3 => h pl3 (List.mem_cons_of_mem _ hpl3)) pl2 hmem

theorem sortedDesc_of_sublist {ls ls' : List Level}
    (h : List.Sublist (pricesOf ls') (pricesOf ls)) (hs : sortedDesc ls) : sortedDesc ls' :=
  hs.sublist h

theorem sortedAsc_of_sublist {ls ls' : List Level}
    (h : List.Sublist (pricesOf ls') (pricesOf ls)) (hs : sortedAsc ls) : sortedAsc ls' :=
  hs.sublist h

/-- Shrinking both sides (in the price-sublist sense) cannot cross the book:
the best bid can only move down and the best ask only up. -/
theorem noCross_mono {bids asks bids' asks' : List Level} (hsb : sortedDesc bids)
    (hsa : sortedAsc asks) (h1 : List.Sublist (pricesOf bids') (pricesOf bids))
    (h2 : List.Sublist (pricesOf asks') (pricesOf asks)) (hc : noCrossSides bids asks) :
    noCrossSides bids' asks' := by
  match bids', asks' with
  | [], _ => trivial
  | (bp', l1) :: r1, [] => trivial
  | (bp', l1) :: r1, (ap', l2) :: r2 =>
    show bp' < ap'
    have hbmem : bp' ∈ pricesOf bids := h1.subset (by simp)
    have hamem : ap' ∈ pricesOf asks := h2.subset (by simp)
    cases bids with
    | nil => simp [pricesOf] at hbmem
    | cons pl0 restB =>
      cases asks with
      | nil => simp [pricesOf] at hamem
      | cons ql0 restA =>
        have hcr : pl0.1 < ql0.1 := by
          obtain ⟨bp0, lb0⟩ := pl0
          obtain ⟨ap0, la0⟩ := ql0
          exact hc
        have hb1 : bp' ≤ pl0.1 := by
          rw [pricesOf_cons] at hbmem
          rcases List.mem_cons.mp hbmem with rfl | hmem
          · exact le_refl _
          · exact le_of_lt ((List.pairwise_cons.mp hsb).1 bp' hmem)
        have ha1 : ql0.1 ≤ ap' := by
          rw [pricesOf_cons] at hamem
          rcases List.mem_cons.mp hamem with rfl | hmem
          · exact le_refl _
          · exact le_of_lt ((List.pairwise_cons.mp hsa).1 ap' hmem)
        exact lt_of_le_of_lt hb1 (lt_of_lt_of_le hcr ha1)

theorem CancelOrder_of_none {b : OrderBook} {orderId : OrderId}
    (h : b.findOrder orderId = none) : b.CancelOrder orderId = b := by
  rw [OrderBook.CancelOrder, h]

theorem CancelOrder_of_sell {b : OrderBook} {orderId : OrderId} {o : Order}
    (h : b.findOrder orderId = some o) (hs : o.side = Side.Sell) :
    b.CancelOrder orderId = { b with asks := removeFromLevels b.asks o.price orderId } := by
  rw [OrderBook.CancelOrder, h]
  simp [hs]

theorem CancelOrder_of_buy {b : OrderBook} {orderId : OrderId} {o : Order}
    (h : b.findOrder orderId = some o) (hs : ¬ o.side = Side.Sell) :
    b.CancelOrder orderId = { b with bids := removeFromLevels b.bids o.price orderId } := by
  rw [OrderBook.CancelOrder, h]
  simp [hs]

theorem CancelOrder_allOrders (b : OrderBook) (orderId : OrderId) :
    List.Sublist (b.CancelOrder orderId).allOrders b.allOrders := by
  cases hf : b.findOrder orderId with
  | none => rw [CancelOrder_of_none hf]
  | some o =>
    by_cases hs : o.side = Side.Sell
    · rw [CancelOrder_of_sell hf hs]
      show List.Sublist (ordersOf b.bids ++ ordersOf (removeFromLevels b.asks o.price orderId))
        (ordersOf b.bids ++ ordersOf b.asks)
      exact List.Sublist.append (List.Sublist.refl _) (removeFromLevels_orders _ _ _)
    · rw [CancelOrder_of_buy hf hs]
      show List.Sublist (ordersOf (removeFromLevels b.bids o.price orderId) ++ ordersOf b.asks)
        (ordersOf b.bids ++ ordersOf b.asks)
      exact List.Sublist.append (removeFromLevels_orders _ _ _) (List.Sublist.refl _)

theorem CancelOrder_inv (b : OrderBook) (orderId : OrderId) (hInv : Inv b) :
    Inv (b.CancelOrder orderId) := by
  have hall := CancelOrder_allOrders b orderId
  cases hf : b.findOrder orderId with
  | none => rw [CancelOrder_of_none hf]; exact hInv
  | some o =>
    by_cases hs : o.side = Side.Sell
    · rw [CancelOrder_of_sell hf hs] at hall ⊢
      refine ⟨hInv.sortedB, sortedAsc_of_sublist (removeFromLevels_prices _ _ _) hInv.sortedA,
        hInv.neB, removeFromLevels_ne _ _ _ hInv.neA,
        hInv.cohB, removeFromLevels_coherent _ _ _ _ hInv.cohA, ?_, ?_, ?_, ?_⟩
      · exact hInv.nodup.sublist
          (List.Sublist.append (List.Sublist.refl _) (removeFromLevels_ids _ _ _))
      · exact noCross_mono hInv.sortedB hInv.sortedA (List.Sublist.refl _)
          (removeFromLevels_prices _ _ _) hInv.cross
      · exact fun o2 ho2 => hInv.gtc o2 (hall.subset ho2)
      · exact fun o2 ho2 => hInv.zero o2 (hall.subset ho2)
    · rw [CancelOrder_of_buy hf hs] at hall ⊢
      refine ⟨sortedDesc_of_sublist (removeFromLevels_prices _ _ _) hInv.sortedB, hInv.sortedA,
        removeFromLevels_ne _ _ _ hInv.neB, hInv.neA,
        removeFromLevels_coherent _ _ _ _ hInv.cohB, hInv.cohA, ?_, ?_, ?_, ?_⟩
      · exact hInv.nodup.sublist
          (List.Sublist.append (removeFromLevels_ids _ _ _) (List.Sublist.refl _))
      · exact noCross_mono hInv.sortedB hInv.sortedA (removeFromLevels_prices _ _ _)
          (List.Sublist.refl _) hInv.cross
      · exact fun o2 ho2 => hInv.gtc o2 (hall.subset ho2)
      · exact fun o2 ho2 => hInv.zero o2 (hall.subset ho2)

/-! Lemmas about the insertion step of AddOrder. -/

/-- The FIFO stored at the first level with the given price (the level
operator[] resolves to). -/
def levelAt (ls : List Level) (price : Price) : List Order :=
  ((ls.find? (fun pl => pl.1 == price)).map Prod.snd).getD []

theorem insertBid_orders (ls : List Level) (o : Order) :
    List.Perm (ordersOf (insertBid ls o)) (o :: ordersOf ls) := by
  induction ls with
  | nil => simp [insertBid]
  | cons pl rest ih =>
    obtain ⟨p, l⟩ := pl
    rw [insertBid]
    split
    · simp [ordersOf]
    · split
      · simp only [ordersOf_cons]
        rw [List.append_assoc]
        exact List.perm_middle
      · simp only [ordersOf_cons]
        exact (List.Perm.append_left l ih).trans List.perm_middle

theorem insertAsk_orders (ls : List Level) (o : Order) :
    List.Perm (ordersOf (insertAsk ls o)) (o :: ordersOf ls) := by
  induction ls with
  | nil => simp [insertAsk]
  | cons pl rest ih =>
    obtain ⟨p, l⟩ := pl
    rw [insertAsk]
    split
    · simp [ordersOf]
    · split
      · simp only [ordersOf_cons]
        rw [List.append_assoc]
        exact List.perm_middle
      · simp only [ordersOf_cons]
        exact (List.Perm.append_left l ih).trans List.perm_middle

theorem insertBid_ids (ls : List Level) (o : Order) :
    List.Perm (idsOf (insertBid ls o)) (o.orderId :: idsOf ls) :=
  (insertBid_orders ls o).map Order.orderId

theorem insertAsk_ids (ls : List Level) (o : Order) :
    List.Perm (idsOf (insertAsk ls o)) (o.orderId :: idsOf ls) :=
  (insertAsk_orders ls o).map Order.orderId

theorem insertBid_prices (ls : List Level) (o : Order) :
    ∀ q ∈ pricesOf (insertBid ls o), q = o.price ∨ q ∈ pricesOf ls := by
  induction ls with
  | nil => simp [insertBid, pricesOf]
  | cons pl rest ih =>
    obtain ⟨p, l⟩ := pl
    rw [insertBid]
    split
    · intro q hq
      simp only [pricesOf_cons] at hq ⊢
      rcases List.mem_cons.mp hq with rfl | hq2
      · exact Or.inl rfl
      · exact Or.inr hq2
    · split
      · intro q hq
        simp only [pricesOf_cons] at hq ⊢
        exact Or.inr hq
      · intro q hq
        simp only [pricesOf_cons] at hq ⊢
        rcases List.mem_cons.mp hq with rfl | hq2
        · exact Or.inr (List.mem_cons_self _ _)
        · rcases ih q hq2 with h | h
          · exact Or.inl h
          · exact Or.inr (List.mem_cons_of_mem _ h)

theorem insertAsk_prices (ls : List Level) (o : Order) :
    ∀ q ∈ pricesOf (insertAsk ls o), q = o.price ∨ q ∈ pricesOf ls := by
  induction ls with
  | nil => simp [insertAsk, pricesOf]
  | cons pl rest ih =>
    obtain ⟨p, l⟩ := pl
    rw [insertAsk]
    split
    · intro q hq
      simp only [pricesOf_cons] at hq ⊢
      rcases List.mem_cons.mp hq with rfl | hq2
      · exact Or.inl rfl
      · exact Or.inr hq2
    · split
      · intro q hq
        simp only [pricesOf_cons] at hq ⊢
        exact Or.inr hq
      · intro q hq
        simp only [pricesOf_cons] at hq ⊢
        rcases List.mem_cons.mp hq with rfl | hq2
        · exact Or.inr (List.mem_cons_self _ _)
        · rcases ih q hq2 with h | h
          · exact Or.inl h
          · exact Or.inr (List.mem_cons_of_mem _ h)

theorem insertBid_sorted (ls : List Level) (o : Order) (hs : sortedDesc ls) :
    sortedDesc (insertBid ls o) := by
  induction ls with
  | nil => simp [insertBid, sortedDesc, pricesOf]
  | cons pl rest ih =>
    obtain ⟨p, l⟩ := pl
    rw [insertBid]
    rw [sortedDesc, pricesOf_cons] at hs
    obtain ⟨hhead, htail⟩ := List.pairwise_cons.mp hs
    by_cases h1 : p < o.price
    · rw [if_pos h1]
      rw [sortedDesc]
      simp only [pricesOf_cons]
      refine List.pairwise_cons.mpr ⟨?_, hs⟩
      intro q hq
      rcases List.mem_cons.mp hq with rfl | hq2
      · exact h1
      · exact lt_trans (hhead q hq2) h1
    · rw [if_neg h1]
      by_cases h2 : p = o.price
      · rw [if_pos h2]
        rw [sortedDesc]
        simp only [pricesOf_cons]
        exact hs
      · rw [if_neg h2]
        rw [sortedDesc]
        simp only [pricesOf_cons]
        refine List.pairwise_cons.mpr ⟨?_, ih htail⟩
        intro q hq
        rcases insertBid_prices rest o q hq with rfl | hq2
        · exact lt_of_le_of_ne (not_lt.mp h1) (fun hc => h2 hc.symm)
        · exact hhead q hq2

theorem insertAsk_sorted (ls : List Level) (o : Order) (hs : sortedAsc ls) :
    sortedAsc (insertAsk ls o) := by
  induction ls with
  | nil => simp [insertAsk, sortedAsc, pricesOf]
  | cons pl rest ih =>
    obtain ⟨p, l⟩ := pl
    rw [insertAsk]
    rw [sortedAsc, pricesOf_cons] at hs
    obtain ⟨hhead, htail⟩ := List.pairwise_cons.mp hs
    by_cases h1 : o.price < p
    · rw [if_pos h1]
      rw [sortedAsc]
      simp only [pricesOf_cons]
      refine List.pairwise_cons.mpr ⟨?_, hs⟩
      intro q hq
      rcases List.mem_cons.mp hq with rfl | hq2
      · exact h1
      · exact lt_trans h1 (hhead q hq2)
    · rw [if_neg h1]
      by_cases h2 : p = o.price
      · rw [if_pos h2]
        rw [sortedAsc]
        simp only [pricesOf_cons]
        exact hs
      · rw [if_neg h2]
        rw [sortedAsc]
        simp only [pricesOf_cons]
        refine List.pairwise_cons.mpr ⟨?_, ih htail⟩
        intro q hq
        rcases insertAsk_prices rest o q hq with rfl | hq2
        · exact lt_of_le_of_ne (not_lt.mp h1) h2
        · exact hhead q hq2

theorem insertBid_ne (ls : List Level) (o : Order) (h : levelsNe ls) :
    levelsNe (insertBid ls o) := by
  induction ls with
  | nil =>
    intro pl hpl
    rcases List.mem_cons.mp hpl with rfl | hpl2
    · simp
    · simp at hpl2
  | cons pl rest ih =>
    obtain ⟨p, l⟩ := pl
    rw [insertBid]
    split
    · intro pl2 hpl2
      rcases List.mem_cons.mp hpl2 with rfl | hpl3
      · simp
      · exact h pl2 hpl3
    · split
      · intro pl2 hpl2
        rcases List.mem_cons.mp hpl2 with rfl | hpl3
        · simp
        · exact h pl2 (List.mem_cons_of_mem _ hpl3)
      · intro pl2 hpl2
        rcases List.mem_cons.mp hpl2 with rfl | hpl3
        · exact h (p, l) (List.mem_cons_self _ _)
        · exact ih (fun pl3 hpl3 => h pl3 (List.mem_cons_of_mem _ hpl3)) pl2 hpl3

theorem insertAsk_ne (ls : List Level) (o : Order) (h : levelsNe ls) :
    levelsNe (insertAsk ls o) := by
  induction ls with
  | nil =>
    intro pl hpl
    rcases List.mem_cons.mp hpl with rfl | hpl2
    · simp
    · simp at hpl2
  | cons pl rest ih =>
    obtain ⟨p, l⟩ := pl
    rw [insertAsk]
    split
    · intro pl2 hpl2
      rcases List.mem_cons.mp hpl2 with rfl | hpl3
      · simp
      · exact h pl2 hpl3
    · split
      · intro pl2 hpl2
        rcases List.mem_cons.mp hpl2 with rfl | hpl3
        · simp
        · exact h pl2 (List.mem_cons_of_mem _ hpl3)
      · intro pl2 hpl2
        rcases List.mem_cons.mp hpl2 with rfl | hpl3
        · exact h (p, l) (List.mem_cons_self _ _)
        · exact ih (fun pl3 hpl3 => h pl3 (List.mem_cons_of_mem _ hpl3)) pl2 hpl3

theorem insertBid_coherent (ls : List Level) (o : Order) (h : coherent Side.Buy ls)
    (hside : o.side = Side.Buy) : coherent Side.Buy (insertBid ls o) := by
  induction ls with
  | nil =>
    intro pl hpl
    rcases List.mem_cons.mp hpl with rfl | hpl2
    · intro o2 ho2
      rcases List.mem_singleton.mp ho2 with rfl
      exact ⟨hside, rfl⟩
    · simp at hpl2
  | cons pl rest ih =>
    obtain ⟨p, l⟩ := pl
    rw [insertBid]
    split
    · intro pl2 hpl2
      rcases List.mem_cons.mp hpl2 with rfl | hpl3
      · intro o2 ho2
        rcases List.mem_singleton.mp ho2 with rfl
        exact ⟨hside, rfl⟩
      · exact h pl2 hpl3
    · split
      · next hlt heq =>
        intro pl2 hpl2
        rcases List.mem_cons.mp hpl2 with rfl | hpl3
        · intro o2 ho2
          rcases List.mem_append.mp ho2 with hm | hm
          · exact h (p, l) (List.mem_cons_self _ _) o2 hm
          · rcases List.mem_singleton.mp hm with rfl
            exact ⟨hside, heq.symm⟩
        · exact h pl2 (List.mem_cons_of_mem _ hpl3)
      · intro pl2 hpl2
        rcases List.mem_cons.mp hpl2 with rfl | hpl3
        · exact h (p, l) (List.mem_cons_self _ _)
        · exact ih (fun pl3 hpl3 => h pl3 (List.mem_cons_of_mem _ hpl3)) pl2 hpl3

theorem insertAsk_coherent (ls : List Level) (o : Order) (h : coherent Side.Sell ls)
    (hside : o.side = Side.Sell) : coherent Side.Sell (insertAsk ls o) := by
  induction ls with
  | nil =>
    intro pl hpl
    rcases List.mem_cons.mp hpl with rfl | hpl2
    · intro o2 ho2
      rcases List.mem_singleton.mp ho2 with rfl
      exact ⟨hside, rfl⟩
    · simp at hpl2
  | cons pl rest ih =>
    obtain ⟨p, l⟩ := pl
    rw [insertAsk]
    split
    · intro pl2 hpl2
      rcases List.mem_cons.mp hpl2 with rfl | hpl3
      · intro o2 ho2
        rcases List.mem_singleton.mp ho2 with rfl
        exact ⟨hside, rfl⟩
      · exact h pl2 hpl3
    · split
      · next hlt heq =>
        intro pl2 hpl2
        rcases List.mem_cons.mp hpl2 with rfl | hpl3
        · intro o2 ho2
          rcases List.mem_append.mp ho2 with hm | hm
          · exact h (p, l) (List.mem_cons_self _ _) o2 hm
          · rcases List.mem_singleton.mp hm with rfl
            exact ⟨hside, heq.symm⟩
        · exact h pl2 (List.mem_cons_of_mem _ hpl3)
      · intro pl2 hpl2
        rcases List.mem_cons.mp hpl2 with rfl | hpl3
        · exact h (p, l) (List.mem_cons_self _ _)
        · exact ih (fun pl3 hpl3 => h pl3 (List.mem_cons_of_mem _ hpl3)) pl2 hpl3

theorem insertBid_tail (ls : List Level) (o : Order) :
    (levelAt (insertBid ls o) o.price).getLast? = some o := by
  induction ls with
  | nil => simp [insertBid, levelAt]
  | cons pl rest ih =>
    obtain ⟨p, l⟩ := pl
    rw [insertBid]
    split
    · simp [levelAt]
    · split
      · next hlt heq =>
        simp [levelAt, List.find?, heq]
      · next hlt heq =>
        have hne : (p == o.price) = false := by
          simp only [beq_eq_false_iff_ne, ne_eq]
          exact heq
        simpa [levelAt, List.find?, hne] using ih

theorem insertAsk_tail (ls : List Level) (o : Order) :
    (levelAt (insertAsk ls o) o.price).getLast? = some o := by
  induction ls with
  | nil => simp [insertAsk, levelAt]
  | cons pl rest ih =>
    obtain ⟨p, l⟩ := pl
    rw [insertAsk]
    split
    · simp [levelAt]
    · split
      · next hlt heq =>
        simp [levelAt, List.find?, heq]
      · next hlt heq =>
        have hne : (p == o.price) = false := by
          simp only [beq_eq_false_iff_ne, ne_eq]
          exact heq
        simpa [levelAt, List.find?, hne] using ih

theorem insertAsk_front {p : Price} {l : List Order} {rest : List Level} {o : Order}
    (h : o.price < p) : insertAsk ((p, l) :: rest) o = (o.price, [o]) :: (p, l) :: rest := by
  rw [insertAsk, if_pos h]

theorem insertBid_front {p : Price} {l : List Order} {rest : List Level} {o : Order}
    (h : p < o.price) : insertBid ((p, l) :: rest) o = (o.price, [o]) :: (p, l) :: rest := by
  rw [insertBid, if_pos h]

/-! Further outer-loop lemmas: unconditional order tracking, and how the
loop treats a lone FillAndKill order at the best level of its side. -/

theorem matchOuterF_zero (bids asks : List Level) :
    matchOuterF 0 bids asks = (bids, asks, []) := by
  cases bids <;> cases asks <;> simp [matchOuterF]

theorem matchOuterF_noCross_eq (fuel : Nat) {bp ap : Price} (bl al : List Order)
    (restBids restAsks : List Level) (h : bp < ap) :
    matchOuterF (fuel + 1) ((bp, bl) :: restBids) ((ap, al) :: restAsks) =
      ((bp, bl) :: restBids, (ap, al) :: restAsks, []) := by
  simp [matchOuterF, h]

theorem matchOuterF_stuck_eq (fuel : Nat) {bp ap : Price} (bl al : List Order)
    (restBids restAsks : List Level) (h1 : ¬ bp < ap)
    (h2 : bl.isEmpty || al.isEmpty) :
    matchOuterF (fuel + 1) ((bp, bl) :: restBids) ((ap, al) :: restAsks) =
      ((bp, bl) :: restBids, (ap, al) :: restAsks, []) := by
  rcases Bool.or_eq_true_iff.mp h2 with hb | hb <;> simp [matchOuterF, h1, hb]

theorem matchOuterF_track (fuel : Nat) (bids asks : List Level) :
    (∀ o' ∈ ordersOf (matchOuterF fuel bids asks).1, ∃ o ∈ ordersOf bids, OrderLE o' o) ∧
    (∀ o' ∈ ordersOf (matchOuterF fuel bids asks).2.1, ∃ o ∈ ordersOf asks, OrderLE o' o) := by
  induction fuel generalizing bids asks with
  | zero =>
    rw [matchOuterF_zero]
    exact ⟨fun o' h => ⟨o', h, OrderLE.refl o'⟩, fun o' h => ⟨o', h, OrderLE.refl o'⟩⟩
  | succ fuel ih =>
    match bids, asks with
    | [], asks =>
      rw [matchOuterF_nil_left]
      exact ⟨fun o' h => ⟨o', h, OrderLE.refl o'⟩, fun o' h => ⟨o', h, OrderLE.refl o'⟩⟩
    | (bp, bl) :: restB, [] =>
      rw [matchOuterF_nil_right]
      exact ⟨fun o' h => ⟨o', h, OrderLE.refl o'⟩, fun o' h => ⟨o', h, OrderLE.refl o'⟩⟩
    | (bp, bl) :: restBids, (ap, al) :: restAsks =>
      by_cases hlt : bp < ap
      · rw [matchOuterF_noCross_eq fuel bl al restBids restAsks hlt]
        exact ⟨fun o' h => ⟨o', h, OrderLE.refl o'⟩, fun o' h => ⟨o', h, OrderLE.refl o'⟩⟩
      · by_cases hstuck : (bl.isEmpty || al.isEmpty : Bool)
        · rw [matchOuterF_stuck_eq fuel bl al restBids restAsks hlt hstuck]
          exact ⟨fun o' h => ⟨o', h, OrderLE.refl o'⟩, fun o' h => ⟨o', h, OrderLE.refl o'⟩⟩
        · have hbl : bl ≠ [] := by
            simp only [Bool.or_eq_true, List.isEmpty_iff] at hstuck
            push_neg at hstuck
            exact hstuck.1
          have hal : al ≠ [] := by
            simp only [Bool.or_eq_true, List.isEmpty_iff] at hstuck
            push_neg at hstuck
            exact hstuck.2
          rw [matchOuterF_cons fuel bp ap bl al restBids restAsks hlt hbl hal]
          have htrB := (matchInnerF_track (bl.length + al.length) bl al).1
          have htrA := (matchInnerF_track (bl.length + al.length) bl al).2
          constructor
          · intro o' ho'
            obtain ⟨o1, ho1, hle1⟩ := (ih _ _).1 o' ho'
            revert ho1
            split
            · intro ho1
              exact ⟨o1, by
                simp only [ordersOf_cons]
                exact List.mem_append_right _ ho1, hle1⟩
            · intro ho1
              simp only [ordersOf_cons] at ho1
              rcases List.mem_append.mp ho1 with hm | hm
              · obtain ⟨o, ho, hle⟩ := htrB o1 hm
                exact ⟨o, by
                  simp only [ordersOf_cons]
                  exact List.mem_append_left _ ho, hle1.trans hle⟩
              · exact ⟨o1, by
                  simp only [ordersOf_cons]
                  exact List.mem_append_right _ hm, hle1⟩
          · intro o' ho'
            obtain ⟨o1, ho1, hle1⟩ := (ih _ _).2 o' ho'
            revert ho1
            split
            · intro ho1
              exact ⟨o1, by
                simp only [ordersOf_cons]
                exact List.mem_append_right _ ho1, hle1⟩
            · intro ho1
              simp only [ordersOf_cons] at ho1
              rcases List.mem_append.mp ho1 with hm | hm
              · obtain ⟨o, ho, hle⟩ := htrA o1 hm
                exact ⟨o, by
                  simp only [ordersOf_cons]
                  exact List.mem_append_left _ ho, hle1.trans hle⟩
              · exact ⟨o1, by
                  simp only [ordersOf_cons]
                  exact List.mem_append_right _ hm, hle1⟩

theorem matchInner_track (bl al : List Order) :
    (∀ o' ∈ (matchInner bl al).1, ∃ o ∈ bl, OrderLE o' o) ∧
    (∀ o' ∈ (matchInner bl al).2.1, ∃ o ∈ al, OrderLE o' o) :=
  matchInnerF_track _ bl al

theorem matchInner_ids (bl al : List Order) :
    List.IsSuffix ((matchInner bl al).1.map Order.orderId) (bl.map Order.orderId) ∧
    List.IsSuffix ((matchInner bl al).2.1.map Order.orderId) (al.map Order.orderId) :=
  matchInnerF_ids _ bl al

/-- A lone FillAndKill ask at the best ask level: the outer loop either
consumes it entirely (leaving an all-GoodTillCancel ask side) or leaves a
partly filled remainder of it alone at the front, with the rest of the ask side
untouched. -/
theorem matchOuterF_fakAsk (fuel : Nat) (bids : List Level) (p : Price) (k : Order)
    (restAsks : List Level)
    (hrest : ∀ o ∈ ordersOf restAsks, o.orderType = OrderType.GoodTillCancel) :
    (∀ o ∈ ordersOf (matchOuterF fuel bids ((p, [k]) :: restAsks)).2.1,
        o.orderType = OrderType.GoodTillCancel) ∨
    (∃ k', OrderLE k' k ∧
      (matchOuterF fuel bids ((p, [k]) :: restAsks)).2.1 = (p, [k']) :: restAsks) := by
  induction fuel generalizing bids k with
  | zero =>
    rw [matchOuterF_zero]
    exact Or.inr ⟨k, OrderLE.refl k, rfl⟩
  | succ fuel ih =>
    match bids with
    | [] =>
      rw [matchOuterF_nil_left]
      exact Or.inr ⟨k, OrderLE.refl k, rfl⟩
    | (bp, bl) :: restBids =>
      by_cases hlt : bp < p
      · rw [matchOuterF_noCross_eq fuel bl [k] restBids restAsks hlt]
        exact Or.inr ⟨k, OrderLE.refl k, rfl⟩
      · by_cases hstuck : (bl.isEmpty || ([k] : List Order).isEmpty : Bool)
        · rw [matchOuterF_stuck_eq fuel bl [k] restBids restAsks hlt hstuck]
          exact Or.inr ⟨k, OrderLE.refl k, rfl⟩
        · have hbl : bl ≠ [] := by
            simp only [Bool.or_eq_true, List.isEmpty_iff] at hstuck
            push_neg at hstuck
            exact hstuck.1
          rw [matchOuterF_cons fuel bp p bl [k] restBids restAsks hlt hbl (by simp)]
          cases hr : (matchInner bl [k]).2.1 with
          | nil =>
            simp only [hr, List.isEmpty_nil, if_pos]
            left
            intro o ho
            obtain ⟨o1, ho1, hle⟩ := (matchOuterF_track fuel _ restAsks).2 o ho
            rw [hle.1]
            exact hrest o1 ho1
          | cons k1 tail =>
            have htail : tail = [] := by
              have hsuf := (matchInner_ids bl [k]).2
              rw [hr] at hsuf
              have hlen := hsuf.length_le
              simp only [List.length_map, List.length_cons, List.length_nil] at hlen
              exact List.length_eq_zero.mp (by omega)
            subst htail
            have hk1 : OrderLE k1 k := by
              obtain ⟨o0, ho0, hle⟩ := (matchInner_track bl [k]).2 k1
                (by rw [hr]; exact List.mem_cons_self _ _)
              rcases List.mem_singleton.mp ho0 with rfl
              exact hle
            simp only [hr, List.isEmpty_cons, Bool.false_eq_true, if_false]
            rcases ih (if (matchInner bl [k]).1.isEmpty then restBids
                else (bp, (matchInner bl [k]).1) :: restBids) k1 with h | ⟨k2, hle2, heq⟩
            · exact Or.inl h
            · exact Or.inr ⟨k2, hle2.trans hk1, heq⟩

/-- The bid-side counterpart of matchOuterF_fakAsk. -/
theorem matchOuterF_fakBid (fuel : Nat) (asks : List Level) (p : Price) (k : Order)
    (restBids : List Level)
    (hrest : ∀ o ∈ ordersOf restBids, o.orderType = OrderType.GoodTillCancel) :
    (∀ o ∈ ordersOf (matchOuterF fuel ((p, [k]) :: restBids) asks).1,
        o.orderType = OrderType.GoodTillCancel) ∨
    (∃ k', OrderLE k' k ∧
      (matchOuterF fuel ((p, [k]) :: restBids) asks).1 = (p, [k']) :: restBids) := by
  induction fuel generalizing asks k with
  | zero =>
    rw [matchOuterF_zero]
    exact Or.inr ⟨k, OrderLE.refl k, rfl⟩
  | succ fuel ih =>
    match asks with
    | [] =>
      rw [matchOuterF_nil_right]
      exact Or.inr ⟨k, OrderLE.refl k, rfl⟩
    | (ap, al) :: restAsks =>
      by_cases hlt : p < ap
      · rw [matchOuterF_noCross_eq fuel [k] al restBids restAsks hlt]
        exact Or.inr ⟨k, OrderLE.refl k, rfl⟩
      · by_cases hstuck : (([k] : List Order).isEmpty || al.isEmpty : Bool)
        · rw [matchOuterF_stuck_eq fuel [k] al restBids restAsks hlt hstuck]
          exact Or.inr ⟨k, OrderLE.refl k, rfl⟩
        · have hal : al ≠ [] := by
            simp only [Bool.or_eq_true, List.isEmpty_iff] at hstuck
            push_neg at hstuck
            exact hstuck.2
          rw [matchOuterF_cons fuel p ap [k] al restBids restAsks hlt (by simp) hal]
          cases hr : (matchInner [k] al).1 with
          | nil =>
            simp only [hr, List.isEmpty_nil, if_pos]
            left
            intro o ho
            obtain ⟨o1, ho1, hle⟩ := (matchOuterF_track fuel restBids _).1 o ho
            rw [hle.1]
            exact hrest o1 ho1
          | cons k1 tail =>
            have htail : tail = [] := by
              have hsuf := (matchInner_ids [k] al).1
              rw [hr] at hsuf
              have hlen := hsuf.length_le
              simp only [List.length_map, List.length_cons, List.length_nil] at hlen
              exact List.length_eq_zero.mp (by omega)
            subst htail
            have hk1 : OrderLE k1 k := by
              obtain ⟨o0, ho0, hle⟩ := (matchInner_track [k] al).1 k1
                (by rw [hr]; exact List.mem_cons_self _ _)
              rcases List.mem_singleton.mp ho0 with rfl
              exact hle
            simp only [hr, List.isEmpty_cons, Bool.false_eq_true, if_false]
            rcases ih (if (matchInner [k] al).2.1.isEmpty then restAsks
                else (ap, (matchInner [k] al).2.1) :: restAsks) k1 with h | ⟨k2, hle2, heq⟩
            · exact Or.inl h
            · exact Or.inr ⟨k2, hle2.trans hk1, heq⟩

/-! Lemmas about the FillAndKill sweep. -/

theorem fakSweepBids_id (b : OrderBook)
    (h : ∀ o ∈ ordersOf b.bids, o.orderType = OrderType.GoodTillCancel) :
    fakSweepBids b = b := by
  cases hb : b.bids with
  | nil => simp [fakSweepBids, hb]
  | cons pl rest =>
    obtain ⟨p, l⟩ := pl
    cases l with
    | nil => simp [fakSweepBids, hb]
    | cons o l2 =>
      have hgtc : o.orderType = OrderType.GoodTillCancel := h o (by
        rw [hb]
        simp only [ordersOf_cons]
        exact List.mem_append_left _ (List.mem_cons_self _ _))
      simp [fakSweepBids, hb, hgtc]

theorem fakSweepAsks_id (b : OrderBook)
    (h : ∀ o ∈ ordersOf b.asks, o.orderType = OrderType.GoodTillCancel) :
    fakSweepAsks b = b := by
  cases ha : b.asks with
  | nil => simp [fakSweepAsks, ha]
  | cons pl rest =>
    obtain ⟨p, l⟩ := pl
    cases l with
    | nil => simp [fakSweepAsks, ha]
    | cons o l2 =>
      have hgtc : o.orderType = OrderType.GoodTillCancel := h o (by
        rw [ha]
        simp only [ordersOf_cons]
        exact List.mem_append_left _ (List.mem_cons_self _ _))
      simp [fakSweepAsks, ha, hgtc]

theorem fakSweepAsks_cancel (B2 restA : List Level) (p : Price) (k' : Order)
    (hfak : k'.orderType = OrderType.FillAndKill) (hside : k'.side = Side.Sell)
    (hprice : k'.price = p)
    (hnb : ∀ o ∈ ordersOf B2, o.orderId ≠ k'.orderId) :
    fakSweepAsks ⟨B2, (p, [k']) :: restA⟩ = ⟨B2, restA⟩ := by
  have hfind : (OrderBook.mk B2 ((p, [k']) :: restA)).findOrder k'.orderId = some k' := by
    rw [OrderBook.findOrder]
    rw [(findInLevels_eq_none_iff B2 k'.orderId).mpr (by exact hnb)]
    rw [findInLevels]
    simp [List.find?]
  have hcancel := CancelOrder_of_sell hfind hside
  show (if k'.orderType = OrderType.FillAndKill then
      (OrderBook.mk B2 ((p, [k']) :: restA)).CancelOrder k'.orderId
    else OrderBook.mk B2 ((p, [k']) :: restA)) = OrderBook.mk B2 restA
  rw [if_pos hfak, hcancel, hprice]
  simp [removeFromLevels]

theorem fakSweepBids_cancel (A2 restB : List Level) (p : Price) (k' : Order)
    (hfak : k'.orderType = OrderType.FillAndKill) (hside : k'.side = Side.Buy)
    (hprice : k'.price = p) :
    fakSweepBids ⟨(p, [k']) :: restB, A2⟩ = ⟨restB, A2⟩ := by
  have hfind : (OrderBook.mk ((p, [k']) :: restB) A2).findOrder k'.orderId = some k' := by
    rw [OrderBook.findOrder, findInLevels]
    simp [List.find?]
  have hnotsell : ¬ k'.side = Side.Sell := by
    rw [hside]
    intro h
    cases h
  have hcancel := CancelOrder_of_buy hfind hnotsell
  show (if k'.orderType = OrderType.FillAndKill then
      (OrderBook.mk ((p, [k']) :: restB) A2).CancelOrder k'.orderId
    else OrderBook.mk ((p, [k']) :: restB) A2) = OrderBook.mk restB A2
  rw [if_pos hfak, hcancel, hprice]
  simp [removeFromLevels]

theorem noCross_tail_bid {p : Price} {l : List Order} {B A : List Level}
    (hs : sortedDesc ((p, l) :: B)) (hc : noCrossSides ((p, l) :: B) A) : noCrossSides B A := by
  match B, A with
  | [], _ => trivial
  | (bp2, l2) :: B2, [] => trivial
  | (bp2, l2) :: B2, (ap2, la) :: A2 =>
    show bp2 < ap2
    have h1 : bp2 < p := by
      rw [sortedDesc, pricesOf_cons] at hs
      exact (List.pairwise_cons.mp hs).1 bp2 (by simp)
    exact lt_trans h1 hc

theorem noCross_tail_ask {p : Price} {l : List Order} {B A : List Level}
    (hs : sortedAsc ((p, l) :: A)) (hc : noCrossSides B ((p, l) :: A)) : noCrossSides B A := by
  match B, A with
  | [], _ => trivial
  | (bp2, l2) :: B2, [] => trivial
  | (bp2, l2) :: B2, (ap2, la) :: A2 =>
    show bp2 < ap2
    have h1 : p < ap2 := by
      rw [sortedAsc, pricesOf_cons] at hs
      exact (List.pairwise_cons.mp hs).1 ap2 (by simp)
    exact lt_trans hc h1

/-! MatchOrders-level lemmas: the loop followed by the sweep restores the
full invariant. -/

@[simp] theorem allOrders_mk (B A : List Level) :
    (OrderBook.mk B A).allOrders = ordersOf B ++ ordersOf A := rfl

theorem mem_idsOf {o : Order} {ls : List Level} (h : o ∈ ordersOf ls) :
    o.orderId ∈ idsOf ls :=
  List.mem_map_of_mem _ h

/-- What AddOrder needs to know about a completed MatchOrders call. -/
structure MatchPost (b : OrderBook) (r : OrderBook × Trades) : Prop where
  inv : Inv r.1
  track : ∀ o' ∈ r.1.allOrders, ∃ o ∈ b.allOrders, OrderLE o' o
  trades : ∀ t ∈ r.2, t.askTrade.price ≤ t.bidTrade.price

theorem MatchOrders_def (b : OrderBook) :
    b.MatchOrders =
      (fakSweepAsks (fakSweepBids
        ⟨(matchOuterLoop b.bids b.asks).1, (matchOuterLoop b.bids b.asks).2.1⟩),
       (matchOuterLoop b.bids b.asks).2.2) := rfl

/-- MatchOrders on a book whose orders are all GoodTillCancel: the sweep does
nothing and the loop's postcondition carries over. -/
theorem MatchOrders_gtc (b : OrderBook)
    (hsb : sortedDesc b.bids) (hsa : sortedAsc b.asks)
    (hneB : levelsNe b.bids) (hneA : levelsNe b.asks)
    (hcB : coherent Side.Buy b.bids) (hcA : coherent Side.Sell b.asks)
    (hnodup : (idsOf b.bids ++ idsOf b.asks).Nodup)
    (hgtc : ∀ o ∈ b.allOrders, o.orderType = OrderType.GoodTillCancel)
    (hzero : ∀ o ∈ b.allOrders, o.remainingQuantity = 0 → o.initialQuantity = 0) :
    MatchPost b b.MatchOrders := by
  have post : OuterPost b.bids b.asks (matchOuterLoop b.bids b.asks) :=
    matchOuterF_main (b.bids.length + b.asks.length) b.bids b.asks hneB hneA hcB hcA
      (Nat.le_refl _)
  have hmemB : ∀ o ∈ ordersOf b.bids, o ∈ b.allOrders := fun o ho =>
    List.mem_append_left _ ho
  have hmemA : ∀ o ∈ ordersOf b.asks, o ∈ b.allOrders := fun o ho =>
    List.mem_append_right _ ho
  have hb1B : ∀ o ∈ ordersOf (matchOuterLoop b.bids b.asks).1,
      o.orderType = OrderType.GoodTillCancel := by
    intro o ho
    obtain ⟨o0, ho0, hle⟩ := post.trackB o ho
    rw [hle.1]
    exact hgtc o0 (hmemB o0 ho0)
  have hb1A : ∀ o ∈ ordersOf (matchOuterLoop b.bids b.asks).2.1,
      o.orderType = OrderType.GoodTillCancel := by
    intro o ho
    obtain ⟨o0, ho0, hle⟩ := post.trackA o ho
    rw [hle.1]
    exact hgtc o0 (hmemA o0 ho0)
  have hres : b.MatchOrders =
      (⟨(matchOuterLoop b.bids b.asks).1, (matchOuterLoop b.bids b.asks).2.1⟩,
       (matchOuterLoop b.bids b.asks).2.2) := by
    rw [MatchOrders_def, fakSweepBids_id _ hb1B, fakSweepAsks_id _ hb1A]
  rw [hres]
  refine ⟨⟨sortedDesc_of_sublist post.priceSubB hsb, sortedAsc_of_sublist post.priceSubA hsa,
    post.neB, post.neA, post.cohB, post.cohA,
    hnodup.sublist (List.Sublist.append post.idsB post.idsA), post.cross, ?_, ?_⟩, ?_, ?_⟩
  · intro o ho
    rcases List.mem_append.mp ho with hm | hm
    · exact hb1B o hm
    · exact hb1A o hm
  · intro o ho
    rcases List.mem_append.mp ho with hm | hm
    · obtain ⟨o0, ho0, hle⟩ := post.trackB o hm
      intro hrz
      rw [hle.2.2.2.2.1]
      exact hzero o0 (hmemB o0 ho0) (hle.2.2.2.2.2.2 hrz)
    · obtain ⟨o0, ho0, hle⟩ := post.trackA o hm
      intro hrz
      rw [hle.2.2.2.2.1]
      exact hzero o0 (hmemA o0 ho0) (hle.2.2.2.2.2.2 hrz)
  · intro o' ho'
    rcases List.mem_append.mp ho' with hm | hm
    · obtain ⟨o, ho, hle⟩ := post.trackB o' hm
      exact ⟨o, hmemB o ho, hle⟩
    · obtain ⟨o, ho, hle⟩ := post.trackA o' hm
      exact ⟨o, hmemA o ho, hle⟩
  · exact post.trades

/-- MatchOrders after a FillAndKill buy was inserted alone at a new best bid
level, every other order in the book being GoodTillCancel: after the loop
and the sweep no FillAndKill order remains. -/
theorem MatchOrders_fakBuy (p : Price) (k : Order) (restB A : List Level)
    (hsb : sortedDesc ((p, [k]) :: restB)) (hsa : sortedAsc A)
    (hneB : levelsNe ((p, [k]) :: restB)) (hneA : levelsNe A)
    (hcB : coherent Side.Buy ((p, [k]) :: restB)) (hcA : coherent Side.Sell A)
    (hnodup : (idsOf ((p, [k]) :: restB) ++ idsOf A).Nodup)
    (hgtcB : ∀ o ∈ ordersOf restB, o.orderType = OrderType.GoodTillCancel)
    (hgtcA : ∀ o ∈ ordersOf A, o.orderType = OrderType.GoodTillCancel)
    (hkt : k.orderType = OrderType.FillAndKill) (hks : k.side = Side.Buy)
    (hkp : k.price = p)
    (hzero : ∀ o ∈ (OrderBook.mk ((p, [k]) :: restB) A).allOrders,
      o.remainingQuantity = 0 → o.initialQuantity = 0) :
    MatchPost (OrderBook.mk ((p, [k]) :: restB) A)
      (OrderBook.mk ((p, [k]) :: restB) A).MatchOrders := by
  have post : OuterPost ((p, [k]) :: restB) A
      (matchOuterLoop ((p, [k]) :: restB) A) :=
    matchOuterF_main (((p, [k]) :: restB).length + A.length) _ _ hneB hneA hcB hcA
      (Nat.le_refl _)
  have shape := matchOuterF_fakBid (((p, [k]) :: restB).length + A.length) A p k restB hgtcB
  set r := matchOuterLoop ((p, [k]) :: restB) A with hrdef
  have hmemB : ∀ o ∈ ordersOf ((p, [k]) :: restB),
      o ∈ (OrderBook.mk ((p, [k]) :: restB) A).allOrders := fun o ho =>
    List.mem_append_left _ ho
  have hmemA : ∀ o ∈ ordersOf A, o ∈ (OrderBook.mk ((p, [k]) :: restB) A).allOrders :=
    fun o ho => List.mem_append_right _ ho
  have hAgtc : ∀ o ∈ ordersOf r.2.1, o.orderType = OrderType.GoodTillCancel := by
    intro o ho
    obtain ⟨o0, ho0, hle⟩ := post.trackA o ho
    rw [hle.1]
    exact hgtcA o0 ho0
  have htrackAll : ∀ o' ∈ ordersOf r.1 ++ ordersOf r.2.1,
      ∃ o ∈ (OrderBook.mk ((p, [k]) :: restB) A).allOrders, OrderLE o' o := by
    intro o' ho'
    rcases List.mem_append.mp ho' with hm | hm
    · obtain ⟨o, ho, hle⟩ := post.trackB o' hm
      exact ⟨o, hmemB o ho, hle⟩
    · obtain ⟨o, ho, hle⟩ := post.trackA o' hm
      exact ⟨o, hmemA o ho, hle⟩
  have hzero1 : ∀ o' ∈ ordersOf r.1 ++ ordersOf r.2.1,
      o'.remainingQuantity = 0 → o'.initialQuantity = 0 := by
    intro o' ho' hrz
    obtain ⟨o, ho, hle⟩ := htrackAll o' ho'
    rw [hle.2.2.2.2.1]
    exact hzero o ho (hle.2.2.2.2.2.2 hrz)
  rcases shape with hall | ⟨k', hk'le, heq⟩
  · -- the FillAndKill was consumed entirely: both sides all GoodTillCancel
    have hres : (OrderBook.mk ((p, [k]) :: restB) A).MatchOrders =
        (⟨r.1, r.2.1⟩, r.2.2) := by
      rw [MatchOrders_def, fakSweepBids_id _ hall, fakSweepAsks_id _ hAgtc]
    rw [hres]
    refine ⟨⟨sortedDesc_of_sublist post.priceSubB hsb, sortedAsc_of_sublist post.priceSubA hsa,
      post.neB, post.neA, post.cohB, post.cohA,
      hnodup.sublist (List.Sublist.append post.idsB post.idsA), post.cross, ?_, hzero1⟩,
      htrackAll, post.trades⟩
    intro o ho
    rcases List.mem_append.mp ho with hm | hm
    · exact hall o hm
    · exact hAgtc o hm
  · -- a remainder of the FillAndKill sits alone at the best bid: swept
    have hk't : k'.orderType = OrderType.FillAndKill := by rw [hk'le.1, hkt]
    have hk's : k'.side = Side.Buy := by rw [hk'le.2.2.1, hks]
    have hk'p : k'.price = p := by rw [hk'le.2.2.2.1, hkp]
    have heq2 : r.1 = (p, [k']) :: restB := heq
    have hsweep1 : fakSweepBids ⟨r.1, r.2.1⟩ = ⟨restB, r.2.1⟩ := by
      rw [heq2]
      exact fakSweepBids_cancel r.2.1 restB p k' hk't hk's hk'p
    have hres : (OrderBook.mk ((p, [k]) :: restB) A).MatchOrders =
        (⟨restB, r.2.1⟩, r.2.2) := by
      rw [MatchOrders_def, hsweep1, fakSweepAsks_id _ hAgtc]
    rw [hres]
    have hsr1 : sortedDesc r.1 := sortedDesc_of_sublist post.priceSubB hsb
    rw [heq2] at hsr1
    have hcross2 : noCrossSides restB r.2.1 := by
      have hc1 := post.cross
      rw [heq2] at hc1
      exact noCross_tail_bid hsr1 hc1
    have hidsB2 : List.Sublist (idsOf restB) (idsOf ((p, [k]) :: restB)) := by
      simp only [idsOf_cons]
      exact List.sublist_append_right _ _
    refine ⟨⟨sortedDesc_of_sublist ?_ hsb, sortedAsc_of_sublist post.priceSubA hsa,
      ?_, post.neA, ?_, post.cohA,
      hnodup.sublist (List.Sublist.append hidsB2 post.idsA), hcross2, ?_, ?_⟩, ?_, post.trades⟩
    · show List.Sublist (pricesOf restB) (pricesOf ((p, [k]) :: restB))
      simp only [pricesOf_cons]
      exact List.sublist_cons_self _ _
    · exact fun pl hpl => hneB pl (List.mem_cons_of_mem _ hpl)
    · exact fun pl hpl => hcB pl (List.mem_cons_of_mem _ hpl)
    · intro o ho
      rcases List.mem_append.mp ho with hm | hm
      · exact hgtcB o hm
      · exact hAgtc o hm
    · intro o ho hrz
      rcases List.mem_append.mp ho with hm | hm
      · exact hzero o (hmemB o (by
          simp only [ordersOf_cons]
          exact List.mem_append_right _ hm)) hrz
      · exact hzero1 o (List.mem_append_right _ hm) hrz
    · intro o' ho'
      rcases List.mem_append.mp ho' with hm | hm
      · exact ⟨o', hmemB o' (by
          simp only [ordersOf_cons]
          exact List.mem_append_right _ hm), OrderLE.refl o'⟩
      · obtain ⟨o, ho, hle⟩ := post.trackA o' hm
        exact ⟨o, hmemA o ho, hle⟩

/-- The ask-side counterpart of MatchOrders_fakBuy. -/
theorem MatchOrders_fakSell (p : Price) (k : Order) (B restA : List Level)
    (hsb : sortedDesc B) (hsa : sortedAsc ((p, [k]) :: restA))
    (hneB : levelsNe B) (hneA : levelsNe ((p, [k]) :: restA))
    (hcB : coherent Side.Buy B) (hcA : coherent Side.Sell ((p, [k]) :: restA))
    (hnodup : (idsOf B ++ idsOf ((p, [k]) :: restA)).Nodup)
    (hgtcB : ∀ o ∈ ordersOf B, o.orderType = OrderType.GoodTillCancel)
    (hgtcA : ∀ o ∈ ordersOf restA, o.orderType = OrderType.GoodTillCancel)
    (hkt : k.orderType = OrderType.FillAndKill) (hks : k.side = Side.Sell)
    (hkp : k.price = p)
    (hzero : ∀ o ∈ (OrderBook.mk B ((p, [k]) :: restA)).allOrders,
      o.remainingQuantity = 0 → o.initialQuantity = 0) :
    MatchPost (OrderBook.mk B ((p, [k]) :: restA))
      (OrderBook.mk B ((p, [k]) :: restA)).MatchOrders := by
  have post : OuterPost B ((p, [k]) :: restA)
      (matchOuterLoop B ((p, [k]) :: restA)) :=
    matchOuterF_main (B.length + ((p, [k]) :: restA).length) _ _ hneB hneA hcB hcA
      (Nat.le_refl _)
  have shape := matchOuterF_fakAsk (B.length + ((p, [k]) :: restA).length) B p k restA hgtcA
  set r := matchOuterLoop B ((p, [k]) :: restA) with hrdef
  have hmemB : ∀ o ∈ ordersOf B, o ∈ (OrderBook.mk B ((p, [k]) :: restA)).allOrders :=
    fun o ho => List.mem_append_left _ ho
  have hmemA : ∀ o ∈ ordersOf ((p, [k]) :: restA),
      o ∈ (OrderBook.mk B ((p, [k]) :: restA)).allOrders := fun o ho =>
    List.mem_append_right _ ho
  have hBgtc : ∀ o ∈ ordersOf r.1, o.orderType = OrderType.GoodTillCancel := by
    intro o ho
    obtain ⟨o0, ho0, hle⟩ := post.trackB o ho
    rw [hle.1]
    exact hgtcB o0 ho0
  have htrackAll : ∀ o' ∈ ordersOf r.1 ++ ordersOf r.2.1,
      ∃ o ∈ (OrderBook.mk B ((p, [k]) :: restA)).allOrders, OrderLE o' o := by
    intro o' ho'
    rcases List.mem_append.mp ho' with hm | hm
    · obtain ⟨o, ho, hle⟩ := post.trackB o' hm
      exact ⟨o, hmemB o ho, hle⟩
    · obtain ⟨o, ho, hle⟩ := post.trackA o' hm
      exact ⟨o, hmemA o ho, hle⟩
  have hzero1 : ∀ o' ∈ ordersOf r.1 ++ ordersOf r.2.1,
      o'.remainingQuantity = 0 → o'.initialQuantity = 0 := by
    intro o' ho' hrz
    obtain ⟨o, ho, hle⟩ := htrackAll o' ho'
    rw [hle.2.2.2.2.1]
    exact hzero o ho (hle.2.2.2.2.2.2 hrz)
  rcases shape with hall | ⟨k', hk'le, heq⟩
  · have hres : (OrderBook.mk B ((p, [k]) :: restA)).MatchOrders =
        (⟨r.1, r.2.1⟩, r.2.2) := by
      rw [MatchOrders_def, fakSweepBids_id _ hBgtc, fakSweepAsks_id _ hall]
    rw [hres]
    refine ⟨⟨sortedDesc_of_sublist post.priceSubB hsb, sortedAsc_of_sublist post.priceSubA hsa,
      post.neB, post.neA, post.cohB, post.cohA,
      hnodup.sublist (List.Sublist.append post.idsB post.idsA), post.cross, ?_, hzero1⟩,
      htrackAll, post.trades⟩
    intro o ho
    rcases List.mem_append.mp ho with hm | hm
    · exact hBgtc o hm
    · exact hall o hm
  · have hk't : k'.orderType = OrderType.FillAndKill := by rw [hk'le.1, hkt]
    have hk's : k'.side = Side.Sell := by rw [hk'le.2.2.1, hks]
    have hk'p : k'.price = p := by rw [hk'le.2.2.2.1, hkp]
    have hk'id : k'.orderId = k.orderId := hk'le.2.1
    have heq2 : r.2.1 = (p, [k']) :: restA := heq
    have hdisj : List.Disjoint (idsOf B) (idsOf ((p, [k]) :: restA)) :=
      List.disjoint_of_nodup_append hnodup
    have hnb : ∀ o ∈ ordersOf r.1, o.orderId ≠ k'.orderId := by
      intro o ho hcon
      have h1 : o.orderId ∈ idsOf B := post.idsB.subset (mem_idsOf ho)
      have h2 : k.orderId ∈ idsOf ((p, [k]) :: restA) := by
        simp only [idsOf_cons]
        exact List.mem_append_left _ (by simp)
      rw [hcon, hk'id] at h1
      exact hdisj h1 h2
    have hsweep2 : fakSweepAsks ⟨r.1, r.2.1⟩ = ⟨r.1, restA⟩ := by
      rw [heq2]
      exact fakSweepAsks_cancel r.1 restA p k' hk't hk's hk'p (fun o ho => hnb o ho)
    have hres : (OrderBook.mk B ((p, [k]) :: restA)).MatchOrders =
        (⟨r.1, restA⟩, r.2.2) := by
      rw [MatchOrders_def, fakSweepBids_id _ hBgtc, hsweep2]
    rw [hres]
    have hsr2 : sortedAsc r.2.1 := sortedAsc_of_sublist post.priceSubA hsa
    rw [heq2] at hsr2
    have hcross2 : noCrossSides r.1 restA := by
      have hc1 := post.cross
      rw [heq2] at hc1
      exact noCross_tail_ask hsr2 hc1
    have hidsA2 : List.Sublist (idsOf restA) (idsOf ((p, [k]) :: restA)) := by
      simp only [idsOf_cons]
      exact List.sublist_append_right _ _
    refine ⟨⟨sortedDesc_of_sublist post.priceSubB hsb, sortedAsc_of_sublist ?_ hsa,
      post.neB, ?_, post.cohB, ?_,
      hnodup.sublist (List.Sublist.append post.idsB hidsA2), hcross2, ?_, ?_⟩, ?_, post.trades⟩
    · show List.Sublist (pricesOf restA) (pricesOf ((p, [k]) :: restA))
      simp only [pricesOf_cons]
      exact List.sublist_cons_self _ _
    · exact fun pl hpl => hneA pl (List.mem_cons_of_mem _ hpl)
    · exact fun pl hpl => hcA pl (List.mem_cons_of_mem _ hpl)
    · intro o ho
      rcases List.mem_append.mp ho with hm | hm
      · exact hBgtc o hm
      · exact hgtcA o hm
    · intro o ho hrz
      rcases List.mem_append.mp ho with hm | hm
      · exact hzero1 o (List.mem_append_left _ hm) hrz
      · exact hzero o (hmemA o (by
          simp only [ordersOf_cons]
          exact List.mem_append_right _ hm)) hrz
    · intro o' ho'
      rcases List.mem_append.mp ho' with hm | hm
      · obtain ⟨o, ho, hle⟩ := post.trackB o' hm
        exact ⟨o, hmemB o ho, hle⟩
      · exact ⟨o', hmemA o' (by
          simp only [ordersOf_cons]
          exact List.mem_append_right _ hm), OrderLE.refl o'⟩

/-! AddOrder-level lemmas. -/

theorem AddOrder_of_contains {b : OrderBook} {t : OrderType} {id : OrderId} {s : Side}
    {p : Price} {q : Quantity} (h : b.containsId id = true) :
    b.AddOrder t id s p q = (b, []) := by
  simp [OrderBook.AddOrder, h]

theorem AddOrder_of_fak {b : OrderBook} {t : OrderType} {id : OrderId} {s : Side}
    {p : Price} {q : Quantity} (h1 : t = OrderType.FillAndKill)
    (h2 : b.CanMatch s p = false) : b.AddOrder t id s p q = (b, []) := by
  by_cases hc : b.containsId id
  · simp [OrderBook.AddOrder, hc]
  · simp [OrderBook.AddOrder, hc, h1, h2]

theorem AddOrder_of_pool {b : OrderBook} {t : OrderType} {id : OrderId} {s : Side}
    {p : Price} {q : Quantity} (hc : b.containsId id = false)
    (hfk : ¬ (t = OrderType.FillAndKill ∧ b.CanMatch s p = false))
    (hp : poolCapacity ≤ b.Size) : b.AddOrder t id s p q = (b, []) := by
  simp [OrderBook.AddOrder, hc, hfk, hp]

theorem AddOrder_run {b : OrderBook} {t : OrderType} {id : OrderId} {s : Side}
    {p : Price} {q : Quantity} (hc : b.containsId id = false)
    (hfk : ¬ (t = OrderType.FillAndKill ∧ b.CanMatch s p = false))
    (hp : b.Size < poolCapacity) :
    b.AddOrder t id s p q = (insertOrder b ⟨t, id, s, p, q, q⟩).MatchOrders := by
  simp [OrderBook.AddOrder, hc, hfk, Nat.not_le.mpr hp]

theorem insertOrder_buy {b : OrderBook} {o : Order} (h : o.side = Side.Buy) :
    insertOrder b o = ⟨insertBid b.bids o, b.asks⟩ := by
  simp [insertOrder, h]

theorem insertOrder_sell {b : OrderBook} {o : Order} (h : o.side = Side.Sell) :
    insertOrder b o = ⟨b.bids, insertAsk b.asks o⟩ := by
  rw [insertOrder, if_neg]
  rw [h]
  intro hcon
  cases hcon

theorem idsOf_append_eq (b : OrderBook) :
    idsOf b.bids ++ idsOf b.asks = b.allOrders.map Order.orderId := by
  simp [idsOf, OrderBook.allOrders]

/-- Packaging of a MatchOrders postcondition into the AddOrder conclusion:
every order of the result descends from the original book or from the newly
inserted order. -/
theorem MatchPost_compose {b b1 : OrderBook} {o : Order}
    (hmem : ∀ x ∈ b1.allOrders, x = o ∨ x ∈ b.allOrders)
    (mp : MatchPost b1 b1.MatchOrders) :
    Inv b1.MatchOrders.1 ∧
    (∀ o' ∈ b1.MatchOrders.1.allOrders,
      (∃ oo ∈ b.allOrders, OrderLE o' oo) ∨ OrderLE o' o) ∧
    (∀ t ∈ b1.MatchOrders.2, t.askTrade.price ≤ t.bidTrade.price) := by
  refine ⟨mp.inv, ?_, mp.trades⟩
  intro o' ho'
  obtain ⟨o2, ho2, hle⟩ := mp.track o' ho'
  rcases hmem o2 ho2 with rfl | hm
  · exact Or.inr hle
  · exact Or.inl ⟨o2, hm, hle⟩

/-- The invariant, order provenance and trade-price facts for a completed
AddOrder call on an invariant-satisfying book. -/
theorem AddOrder_spec (b : OrderBook) (orderType : OrderType) (orderId : OrderId)
    (side : Side) (price : Price) (quantity : Quantity) (hInv : Inv b) :
    Inv (b.AddOrder orderType orderId side price quantity).1 ∧
    (∀ o' ∈ (b.AddOrder orderType orderId side price quantity).1.allOrders,
      (∃ o ∈ b.allOrders, OrderLE o' o) ∨
        OrderLE o' ⟨orderType, orderId, side, price, quantity, quantity⟩) ∧
    (∀ t ∈ (b.AddOrder orderType orderId side price quantity).2,
      t.askTrade.price ≤ t.bidTrade.price) := by
  by_cases hc : b.containsId orderId
  · rw [AddOrder_of_contains hc]
    exact ⟨hInv, fun o' ho' => Or.inl ⟨o', ho', OrderLE.refl o'⟩,
      fun t ht => (List.not_mem_nil t ht).elim⟩
  · have hc' : b.containsId orderId = false := by
      simpa using hc
    by_cases hfk : orderType = OrderType.FillAndKill ∧ b.CanMatch side price = false
    · rw [AddOrder_of_fak hfk.1 hfk.2]
      exact ⟨hInv, fun o' ho' => Or.inl ⟨o', ho', OrderLE.refl o'⟩,
        fun t ht => (List.not_mem_nil t ht).elim⟩
    · by_cases hp : poolCapacity ≤ b.Size
      · rw [AddOrder_of_pool hc' hfk hp]
        exact ⟨hInv, fun o' ho' => Or.inl ⟨o', ho', OrderLE.refl o'⟩,
          fun t ht => (List.not_mem_nil t ht).elim⟩
      · rw [AddOrder_run hc' hfk (Nat.not_le.mp hp)]
        have hfresh : ∀ o2 ∈ b.allOrders, o2.orderId ≠ orderId :=
          (containsId_false_iff b orderId).mp hc'
        have hnodup_cons : (orderId :: (idsOf b.bids ++ idsOf b.asks)).Nodup := by
          refine List.nodup_cons.mpr ⟨?_, hInv.nodup⟩
          rw [idsOf_append_eq]
          intro hmem
          obtain ⟨o2, ho2, hid⟩ := List.mem_map.mp hmem
          exact hfresh o2 ho2 hid
        -- the inserted order
        set o : Order := ⟨orderType, orderId, side, price, quantity, quantity⟩ with ho_def
        have hzero_new : o.remainingQuantity = 0 → o.initialQuantity = 0 := fun h => h
        cases side with
        | Buy =>
          have hb1 : insertOrder b o = ⟨insertBid b.bids o, b.asks⟩ :=
            insertOrder_buy rfl
          rw [hb1]
          have hmem1 : ∀ x ∈ (OrderBook.mk (insertBid b.bids o) b.asks).allOrders,
              x = o ∨ x ∈ b.allOrders := by
            intro x hx
            rcases List.mem_append.mp hx with hm | hm
            · have := (insertBid_orders b.bids o).subset hm
              rcases List.mem_cons.mp this with rfl | hm2
              · exact Or.inl rfl
              · exact Or.inr (List.mem_append_left _ hm2)
            · exact Or.inr (List.mem_append_right _ hm)
          have hnodup1 : (idsOf (insertBid b.bids o) ++ idsOf b.asks).Nodup := by
            have hperm : List.Perm (idsOf (insertBid b.bids o) ++ idsOf b.asks)
                (orderId :: (idsOf b.bids ++ idsOf b.asks)) := by
              have h1 := insertBid_ids b.bids o
              exact (h1.append_right (idsOf b.asks)).trans (List.Perm.refl _)
            exact hperm.nodup_iff.mpr hnodup_cons
          have hzero1 : ∀ x ∈ (OrderBook.mk (insertBid b.bids o) b.asks).allOrders,
              x.remainingQuantity = 0 → x.initialQuantity = 0 := by
            intro x hx
            rcases hmem1 x hx with rfl | hm
            · exact hzero_new
            · exact hInv.zero x hm
          cases horderType : orderType with
          | GoodTillCancel =>
            have hgtc1 : ∀ x ∈ (OrderBook.mk (insertBid b.bids o) b.asks).allOrders,
                x.orderType = OrderType.GoodTillCancel := by
              intro x hx
              rcases hmem1 x hx with rfl | hm
              · rw [ho_def, horderType]
              · exact hInv.gtc x hm
            exact MatchPost_compose hmem1
              (MatchOrders_gtc _ (insertBid_sorted _ _ hInv.sortedB) hInv.sortedA
                (insertBid_ne _ _ hInv.neB) hInv.neA
                (insertBid_coherent _ _ hInv.cohB rfl) hInv.cohA
                hnodup1 hgtc1 hzero1)
          | FillAndKill =>
            have hcm : b.CanMatch Side.Buy price = true := by
              rcases Bool.eq_false_or_eq_true (b.CanMatch Side.Buy price) with h | h
              · exact h
              · exact absurd ⟨by rw [horderType], h⟩ hfk
            -- the ask side is non-empty and its best price is ≤ price
            have hex : ∃ bestAsk l0 restA0,
                b.asks = (bestAsk, l0) :: restA0 ∧ bestAsk ≤ price := by
              rw [OrderBook.CanMatch] at hcm
              cases hasks : b.asks with
              | nil =>
                rw [hasks] at hcm
                simp at hcm
              | cons ql restA0 =>
                obtain ⟨bestAsk, l0⟩ := ql
                rw [hasks] at hcm
                exact ⟨bestAsk, l0, restA0, rfl, by simpa using hcm⟩
            obtain ⟨bestAsk, l0, restA0, hasks, hle0⟩ := hex
            -- the new order starts a fresh best bid level
            have hfront : insertBid b.bids o = (price, [o]) :: b.bids := by
              cases hbids : b.bids with
              | nil => rw [insertBid]
              | cons pl restB0 =>
                obtain ⟨bp0, lb0⟩ := pl
                have hcross0 : bp0 < bestAsk := by
                  have hcr := hInv.cross
                  rw [hbids, hasks] at hcr
                  exact hcr
                exact insertBid_front (lt_of_lt_of_le hcross0 hle0)
            rw [hfront]
            have hsb1 : sortedDesc ((price, [o]) :: b.bids) := by
              rw [← hfront]
              exact insertBid_sorted _ _ hInv.sortedB
            have hne1 : levelsNe ((price, [o]) :: b.bids) := by
              rw [← hfront]
              exact insertBid_ne _ _ hInv.neB
            have hcoh1 : coherent Side.Buy ((price, [o]) :: b.bids) := by
              rw [← hfront]
              exact insertBid_coherent _ _ hInv.cohB rfl
            have hnodup1 : (idsOf ((price, [o]) :: b.bids) ++ idsOf b.asks).Nodup := by
              rw [← hfront]
              have hperm : List.Perm (idsOf (insertBid b.bids o) ++ idsOf b.asks)
                  (orderId :: (idsOf b.bids ++ idsOf b.asks)) :=
                ((insertBid_ids b.bids o).append_right (idsOf b.asks)).trans
                  (List.Perm.refl _)
              exact hperm.nodup_iff.mpr hnodup_cons
            have hmem1 : ∀ x ∈ (OrderBook.mk ((price, [o]) :: b.bids) b.asks).allOrders,
                x = o ∨ x ∈ b.allOrders := by
              rw [← hfront]
              intro x hx
              rcases List.mem_append.mp hx with hm | hm
              · have := (insertBid_orders b.bids o).subset hm
                rcases List.mem_cons.mp this with rfl | hm2
                · exact Or.inl rfl
                · exact Or.inr (List.mem_append_left _ hm2)
              · exact Or.inr (List.mem_append_right _ hm)
            have hzero1 : ∀ x ∈ (OrderBook.mk ((price, [o]) :: b.bids) b.asks).allOrders,
                x.remainingQuantity = 0 → x.initialQuantity = 0 := by
              intro x hx
              rcases hmem1 x hx with rfl | hm
              · exact hzero_new
              · exact hInv.zero x hm
            exact MatchPost_compose hmem1
              (MatchOrders_fakBuy price o b.bids b.asks hsb1 hInv.sortedA hne1 hInv.neA
                hcoh1 hInv.cohA hnodup1
                (fun x hx => hInv.gtc x (List.mem_append_left _ hx))
                (fun x hx => hInv.gtc x (List.mem_append_right _ hx))
                (by rw [ho_def, horderType]) rfl rfl hzero1)
        | Sell =>
          have hb1 : insertOrder b o = ⟨b.bids, insertAsk b.asks o⟩ :=
            insertOrder_sell rfl
          rw [hb1]
          have hmem1 : ∀ x ∈ (OrderBook.mk b.bids (insertAsk b.asks o)).allOrders,
              x = o ∨ x ∈ b.allOrders := by
            intro x hx
            rcases List.mem_append.mp hx with hm | hm
            · exact Or.inr (List.mem_append_left _ hm)
            · have := (insertAsk_orders b.asks o).subset hm
              rcases List.mem_cons.mp this with rfl | hm2
              · exact Or.inl rfl
              · exact Or.inr (List.mem_append_right _ hm2)
          have hnodupPerm : List.Perm (idsOf b.bids ++ idsOf (insertAsk b.asks o))
              (orderId :: (idsOf b.bids ++ idsOf b.asks)) := by
            have h1 := insertAsk_ids b.asks o
            exact ((h1.append_left (idsOf b.bids)).trans
              (List.perm_middle)).trans (List.Perm.refl _)
          have hnodup1 : (idsOf b.bids ++ idsOf (insertAsk b.asks o)).Nodup :=
            hnodupPerm.nodup_iff.mpr hnodup_cons
          have hzero1 : ∀ x ∈ (OrderBook.mk b.bids (insertAsk b.asks o)).allOrders,
              x.remainingQuantity = 0 → x.initialQuantity = 0 := by
            intro x hx
            rcases hmem1 x hx with rfl | hm
            · exact hzero_new
            · exact hInv.zero x hm
          cases horderType : orderType with
          | GoodTillCancel =>
            have hgtc1 : ∀ x ∈ (OrderBook.mk b.bids (insertAsk b.asks o)).allOrders,
                x.orderType = OrderType.GoodTillCancel := by
              intro x hx
              rcases hmem1 x hx with rfl | hm
              · rw [ho_def, horderType]
              · exact hInv.gtc x hm
            exact MatchPost_compose hmem1
              (MatchOrders_gtc _ hInv.sortedB (insertAsk_sorted _ _ hInv.sortedA)
                hInv.neB (insertAsk_ne _ _ hInv.neA)
                hInv.cohB (insertAsk_coherent _ _ hInv.cohA rfl)
                hnodup1 hgtc1 hzero1)
          | FillAndKill =>
            have hcm : b.CanMatch Side.Sell price = true := by
              rcases Bool.eq_false_or_eq_true (b.CanMatch Side.Sell price) with h | h
              · exact h
              · exact absurd ⟨by rw [horderType], h⟩ hfk
            have hex : ∃ bestBid l0 restB0,
                b.bids = (bestBid, l0) :: restB0 ∧ price ≤ bestBid := by
              rw [OrderBook.CanMatch] at hcm
              cases hbids : b.bids with
              | nil =>
                rw [hbids] at hcm
                simp at hcm
              | cons pl restB0 =>
                obtain ⟨bestBid, l0⟩ := pl
                rw [hbids] at hcm
                exact ⟨bestBid, l0, restB0, rfl, by simpa using hcm⟩
            obtain ⟨bestBid, l0, restB0, hbids, hle0⟩ := hex
            have hfront : insertAsk b.asks o = (price, [o]) :: b.asks := by
              cases hasks : b.asks with
              | nil => rw [insertAsk]
              | cons ql restA0 =>
                obtain ⟨ap0, la0⟩ := ql
                have hcross0 : bestBid < ap0 := by
                  have hcr := hInv.cross
                  rw [hbids, hasks] at hcr
                  exact hcr
                exact insertAsk_front (lt_of_le_of_lt hle0 hcross0)
            rw [hfront]
            have hsa1 : sortedAsc ((price, [o]) :: b.asks) := by
              rw [← hfront]
              exact insertAsk_sorted _ _ hInv.sortedA
            have hne1 : levelsNe ((price, [o]) :: b.asks) := by
              rw [← hfront]
              exact insertAsk_ne _ _ hInv.neA
            have hcoh1 : coherent Side.Sell ((price, [o]) :: b.asks) := by
              rw [← hfront]
              exact insertAsk_coherent _ _ hInv.cohA rfl
            have hnodup1 : (idsOf b.bids ++ idsOf ((price, [o]) :: b.asks)).Nodup := by
              rw [← hfront]
              have hperm : List.Perm (idsOf b.bids ++ idsOf (insertAsk b.asks o))
                  (orderId :: (idsOf b.bids ++ idsOf b.asks)) :=
                (((insertAsk_ids b.asks o).append_left (idsOf b.bids)).trans
                  List.perm_middle).trans (List.Perm.refl _)
              exact hperm.nodup_iff.mpr hnodup_cons
            have hmem2 : ∀ x ∈ (OrderBook.mk b.bids ((price, [o]) :: b.asks)).allOrders,
                x = o ∨ x ∈ b.allOrders := by
              rw [← hfront]
              exact hmem1
            have hzero2 : ∀ x ∈ (OrderBook.mk b.bids ((price, [o]) :: b.asks)).allOrders,
                x.remainingQuantity = 0 → x.initialQuantity = 0 := by
              rw [← hfront]
              exact hzero1
            exact MatchPost_compose hmem2
              (MatchOrders_fakSell price o b.bids b.asks hInv.sortedB hsa1
                hInv.neB hne1 hInv.cohB hcoh1 hnodup1
                (fun x hx => hInv.gtc x (List.mem_append_left _ hx))
                (fun x hx => hInv.gtc x (List.mem_append_right _ hx))
                (by rw [ho_def, horderType]) rfl rfl hzero2)

/-! The operation level: modify, the step function, and reachability. -/

theorem MatchOrder_of_none {b : OrderBook} {orderId : OrderId} {s : Side} {p : Price}
    {q : Quantity} (h : b.findOrder orderId = none) :
    b.MatchOrder orderId s p q = (b, []) := by
  rw [OrderBook.MatchOrder, h]

theorem MatchOrder_of_some {b : OrderBook} {orderId : OrderId} {s : Side} {p : Price}
    {q : Quantity} {existingOrder : Order} (h : b.findOrder orderId = some existingOrder) :
    b.MatchOrder orderId s p q =
      (b.CancelOrder orderId).AddOrder existingOrder.orderType orderId s p q := by
  rw [OrderBook.MatchOrder, h]

theorem Inv_empty : Inv emptyBook := by
  refine ⟨?_, ?_, ?_, ?_, ?_, ?_, ?_, ?_, ?_, ?_⟩ <;>
    simp [sortedDesc, sortedAsc, levelsNe, coherent, noCrossSides, emptyBook,
      OrderBook.allOrders, pricesOf, idsOf, ordersOf]

theorem applyOp_inv (b : OrderBook) (op : Op) (hInv : Inv b) : Inv (applyOp b op) := by
  cases op with
  | add t id s p q => exact (AddOrder_spec b t id s p q hInv).1
  | cancel id => exact CancelOrder_inv b id hInv
  | modify id s p q =>
    show Inv (b.MatchOrder id s p q).1
    cases hf : b.findOrder id with
    | none =>
      rw [MatchOrder_of_none hf]
      exact hInv
    | some ex =>
      rw [MatchOrder_of_some hf]
      exact (AddOrder_spec _ _ _ _ _ _ (CancelOrder_inv b id hInv)).1

theorem Reachable_inv {b : OrderBook} (h : Reachable b) : Inv b := by
  induction h with
  | empty => exact Inv_empty
  | step b op hb ih => exact applyOp_inv b op ih

theorem reachable_foldl (ops : List Op) (b : OrderBook) (hb : Reachable b) :
    Reachable (ops.foldl applyOp b) := by
  induction ops generalizing b with
  | nil => exact hb
  | cons op rest ih => exact ih _ (Reachable.step b op hb)

theorem reachable_runOps (ops : List Op) : Reachable (runOps ops) :=
  reachable_foldl ops emptyBook Reachable.empty

/-- Two orders of an invariant book with the same id are the same order. -/
theorem Inv_unique {b : OrderBook} (hInv : Inv b) {o1 o2 : Order}
    (h1 : o1 ∈ b.allOrders) (h2 : o2 ∈ b.allOrders) (hid : o1.orderId = o2.orderId) :
    o1 = o2 := by
  have hnd : (b.allOrders.map Order.orderId).Nodup := by
    rw [← idsOf_append_eq]
    exact hInv.nodup
  exact List.inj_on_of_nodup_map hnd h1 h2 hid

/-- The id an operation (re-)introduces into the book: the id of an add, and
the id a modify cancels and re-submits. -/
def Op.modifyId : Op → Option OrderId
  | Op.modify orderId _ _ _ => some orderId
  | _ => none

/-- Provenance of every order after one operation: it descends from an order
of the previous book with the same identity and no larger remainder, unless
the operation itself (re-)created its id. -/
theorem applyOp_track (b : OrderBook) (op : Op) (hInv : Inv b) :
    ∀ o' ∈ (applyOp b op).allOrders,
      (∃ o ∈ b.allOrders, OrderLE o' o) ∨
      (match op with
        | Op.add _ id _ _ _ => o'.orderId = id
        | Op.cancel _ => False
        | Op.modify id _ _ _ => o'.orderId = id) := by
  cases op with
  | add t id s p q =>
    intro o' ho'
    rcases (AddOrder_spec b t id s p q hInv).2.1 o' ho' with h | h
    · exact Or.inl h
    · exact Or.inr h.2.1
  | cancel id =>
    intro o' ho'
    exact Or.inl ⟨o', (CancelOrder_allOrders b id).subset ho', OrderLE.refl o'⟩
  | modify id s p q =>
    intro o' ho'
    have ho2 : o' ∈ (b.MatchOrder id s p q).1.allOrders := ho'
    cases hf : b.findOrder id with
    | none =>
      rw [MatchOrder_of_none hf] at ho2
      exact Or.inl ⟨o', ho2, OrderLE.refl o'⟩
    | some ex =>
      rw [MatchOrder_of_some hf] at ho2
      rcases (AddOrder_spec _ _ _ _ _ _ (CancelOrder_inv b id hInv)).2.1 o' ho2 with h | h
      · obtain ⟨o, ho, hle⟩ := h
        exact Or.inl ⟨o, (CancelOrder_allOrders b id).subset ho, hle⟩
      · exact Or.inr h.2.1

/-- The uint32 accumulate of GetOrderInfos computes the sum of the remaining
quantities reduced modulo 2^32. -/
theorem levelQuantity_eq (l : List Order) :
    levelQuantity l = (l.map Order.remainingQuantity).sum % quantityModulus := by
  rw [levelQuantity]
  suffices h : ∀ a : Nat,
      l.foldl (fun runningSum o => (runningSum + o.remainingQuantity) % quantityModulus)
        (a % quantityModulus) =
      (a + (l.map Order.remainingQuantity).sum) % quantityModulus by
    simpa using h 0
  induction l with
  | nil => intro a; simp
  | cons x xs ih =>
    intro a
    simp only [List.foldl_cons, List.map_cons, List.sum_cons]
    rw [Nat.mod_add_mod, ih (a + x.remainingQuantity), Nat.add_assoc]

/-- The remaining quantity of an order identity never grows across an
operation, except when a modify cancels and re-submits that very id (a new
order lifetime in the C++ sense: the old node is released and a fresh node
acquired). -/
theorem remaining_mono (b : OrderBook) (op : Op) (o o' : Order) (hr : Reachable b)
    (ho : o ∈ b.allOrders) (ho' : o' ∈ (applyOp b op).allOrders)
    (hid : o'.orderId = o.orderId) (hmod : op.modifyId ≠ some o.orderId) :
    o'.remainingQuantity ≤ o.remainingQuantity := by
  have hInv := Reachable_inv hr
  cases op with
  | add t id s p q =>
    rcases applyOp_track b (Op.add t id s p q) hInv o' ho' with ⟨o2, ho2, hle⟩ | hnew
    · have heq : o2 = o := Inv_unique hInv ho2 ho (by rw [← hle.2.1, hid])
      rw [← heq]
      exact hle.2.2.2.2.2.1
    · have hoid : o.orderId = id := by rw [← hid]; exact hnew
      have hcontains : b.containsId id = true :=
        (containsId_iff b id).mpr ⟨o, ho, hoid⟩
      have hres : applyOp b (Op.add t id s p q) = b := by
        show (b.AddOrder t id s p q).1 = b
        rw [AddOrder_of_contains hcontains]
      rw [hres] at ho'
      have heq : o' = o := Inv_unique hInv ho' ho hid
      rw [heq]
  | cancel id =>
    have hsub := CancelOrder_allOrders b id
    have heq : o' = o := Inv_unique hInv (hsub.subset ho') ho hid
    rw [heq]
  | modify id s p q =>
    have hneq : o.orderId ≠ id := by
      intro hcon
      exact hmod (by rw [Op.modifyId, hcon])
    cases hf : b.findOrder id with
    | none =>
      have hres : applyOp b (Op.modify id s p q) = b := by
        show (b.MatchOrder id s p q).1 = b
        rw [MatchOrder_of_none hf]
      rw [hres] at ho'
      have heq : o' = o := Inv_unique hInv ho' ho hid
      rw [heq]
    | some ex =>
      have ho2 : o' ∈ (b.MatchOrder id s p q).1.allOrders := ho'
      rw [MatchOrder_of_some hf] at ho2
      rcases (AddOrder_spec _ _ _ _ _ _ (CancelOrder_inv b id hInv)).2.1 o' ho2 with
        ⟨o2, ho2m, hle⟩ | hnew
      · have ho2b : o2 ∈ b.allOrders := (CancelOrder_allOrders b id).subset ho2m
        have heq : o2 = o := Inv_unique hInv ho2b ho (by rw [← hle.2.1, hid])
        rw [← heq]
        exact hle.2.2.2.2.2.1
      · have : o.orderId = id := by rw [← hid]; exact hnew.2.1
        exact absurd this hneq

/-! The claims. -/

/-- Claim C1: for every sequence of public operations, after any add call
returns, no order of type FillAndKill rests anywhere in the book: every FAK
order is either never inserted (it failed the CanMatch pre-check), or it was
inserted, matched for whatever quantity was available, and then removed —
fully filled during matching or cancelled by the post-match sweep of the
best level's head on each side.  Formalised as: in every reachable quiescent
book (in particular right after any add) no resting order has type
FillAndKill. -/
theorem claim_C1_fak_never_rests (b : OrderBook) (hr : Reachable b) :
    ∀ o ∈ b.allOrders, o.orderType ≠ OrderType.FillAndKill := by
  intro o ho
  rw [(Reachable_inv hr).gtc o ho]
  intro hcon
  cases hcon

theorem claim_C1_fak_never_rests_witness :
    (⟨OrderType.GoodTillCancel, 1, Side.Buy, 100, 5, 5⟩ : Order).orderType ≠
      OrderType.FillAndKill :=
  claim_C1_fak_never_rests (runOps [Op.add OrderType.GoodTillCancel 1 Side.Buy 100 5])
    (reachable_runOps _) _ (by decide)

/-- Claim C2: for every sequence of public operations, at every quiescent
moment after an operation has returned, if both the bid side and the ask
side of the book are non-empty then the best (highest) bid price is strictly
less than the best (lowest) ask price — the book is never left crossed. -/
theorem claim_C2_no_crossed_book (b : OrderBook) (bp ap : Price) (bl al : List Order)
    (restB restA : List Level) (hr : Reachable b)
    (hb : b.bids = (bp, bl) :: restB) (ha : b.asks = (ap, al) :: restA) : bp < ap := by
  have h := (Reachable_inv hr).cross
  rw [hb, ha] at h
  exact h

theorem claim_C2_no_crossed_book_witness : (90 : Price) < 100 :=
  claim_C2_no_crossed_book
    (runOps [Op.add OrderType.GoodTillCancel 1 Side.Buy 90 5,
             Op.add OrderType.GoodTillCancel 2 Side.Sell 100 5])
    90 100 [⟨OrderType.GoodTillCancel, 1, Side.Buy, 90, 5, 5⟩]
    [⟨OrderType.GoodTillCancel, 2, Side.Sell, 100, 5, 5⟩] [] []
    (reachable_runOps _) (by decide) (by decide)

/-- Claim C3 counterexample: add performs no quantity validation, and a
GoodTillCancel order submitted with qty = 0 RESTS in the book with
remaining_qty = 0 after the add returns (it is in the ID index and in the
bid FIFO at price 100), refuting the claim that an order whose remaining_qty
reaches 0 is absent from the book at every subsequent quiescent moment. -/
theorem claim_C3_zero_rests_counterexample :
    (emptyBook.AddOrder OrderType.GoodTillCancel 1 Side.Buy 100 0).1.allOrders =
      [⟨OrderType.GoodTillCancel, 1, Side.Buy, 100, 0, 0⟩] ∧
    (⟨OrderType.GoodTillCancel, 1, Side.Buy, 100, 0, 0⟩ : Order).remainingQuantity = 0 ∧
    (emptyBook.AddOrder OrderType.GoodTillCancel 1 Side.Buy 100 0).1.containsId 1 = true := by
  decide

/-- Claim C3, amended: remaining_qty is non-increasing for an order identity
across every public operation except a modify of that very id (which ends
the order's lifetime and re-submits a fresh order under the same id); and
every RESTING order with remaining_qty = 0 was submitted with qty = 0 —
equivalently, an order whose remaining quantity reaches 0 through fills is
removed on the spot and never rests. -/
theorem claim_C3_monotone_remaining_amended :
    (∀ (b : OrderBook) (op : Op) (o o' : Order), Reachable b → o ∈ b.allOrders →
      o' ∈ (applyOp b op).allOrders → o'.orderId = o.orderId →
      op.modifyId ≠ some o.orderId → o'.remainingQuantity ≤ o.remainingQuantity) ∧
    (∀ (b : OrderBook) (o : Order), Reachable b → o ∈ b.allOrders →
      o.remainingQuantity = 0 → o.initialQuantity = 0) :=
  ⟨fun b op o o' hr ho ho' hid hmod => remaining_mono b op o o' hr ho ho' hid hmod,
   fun b o hr ho hz => (Reachable_inv hr).zero o ho hz⟩

theorem claim_C3_monotone_remaining_amended_witness :
    (⟨OrderType.GoodTillCancel, 1, Side.Buy, 100, 5, 2⟩ : Order).remainingQuantity ≤
      (⟨OrderType.GoodTillCancel, 1, Side.Buy, 100, 5, 5⟩ : Order).remainingQuantity ∧
    (⟨OrderType.GoodTillCancel, 7, Side.Buy, 100, 0, 0⟩ : Order).initialQuantity = 0 :=
  ⟨claim_C3_monotone_remaining_amended.1
      (runOps [Op.add OrderType.GoodTillCancel 1 Side.Buy 100 5])
      (Op.add OrderType.GoodTillCancel 2 Side.Sell 100 3) _ _
      (reachable_runOps _) (by decide) (by decide) (by decide) (by decide),
   claim_C3_monotone_remaining_amended.2
      (runOps [Op.add OrderType.GoodTillCancel 7 Side.Buy 100 0]) _
      (reachable_runOps _) (by decide) (by decide)⟩

/-- Claim C4: duplicate-id add, FillAndKill add that cannot match, cancel of
an unknown id and modify of an unknown id are silent no-ops: they return an
empty trade list (cancel returns nothing) and leave the whole book state —
both sides, hence also the derived ID index and pool occupancy — exactly as
it was. -/
theorem claim_C4_silent_noops (b : OrderBook) (t : OrderType) (orderId : OrderId)
    (s : Side) (p : Price) (q : Quantity) :
    (b.containsId orderId = true → b.AddOrder t orderId s p q = (b, [])) ∧
    (t = OrderType.FillAndKill → b.CanMatch s p = false →
      b.AddOrder t orderId s p q = (b, [])) ∧
    (b.containsId orderId = false → b.CancelOrder orderId = b) ∧
    (b.containsId orderId = false → b.MatchOrder orderId s p q = (b, [])) := by
  refine ⟨fun h => AddOrder_of_contains h, fun h1 h2 => AddOrder_of_fak h1 h2, ?_, ?_⟩
  · intro h
    exact CancelOrder_of_none (findOrder_none_of_not_contains h)
  · intro h
    exact MatchOrder_of_none (findOrder_none_of_not_contains h)

theorem claim_C4_silent_noops_witness :
    ((runOps [Op.add OrderType.GoodTillCancel 1 Side.Buy 100 5]).AddOrder
        OrderType.GoodTillCancel 1 Side.Sell 101 5 =
      (runOps [Op.add OrderType.GoodTillCancel 1 Side.Buy 100 5], [])) ∧
    ((runOps [Op.add OrderType.GoodTillCancel 1 Side.Buy 100 5]).AddOrder
        OrderType.FillAndKill 2 Side.Sell 200 5 =
      (runOps [Op.add OrderType.GoodTillCancel 1 Side.Buy 100 5], [])) ∧
    ((runOps [Op.add OrderType.GoodTillCancel 1 Side.Buy 100 5]).CancelOrder 7 =
      runOps [Op.add OrderType.GoodTillCancel 1 Side.Buy 100 5]) ∧
    ((runOps [Op.add OrderType.GoodTillCancel 1 Side.Buy 100 5]).MatchOrder 7
        Side.Buy 100 5 =
      (runOps [Op.add OrderType.GoodTillCancel 1 Side.Buy 100 5], [])) :=
  ⟨(claim_C4_silent_noops _ OrderType.GoodTillCancel 1 Side.Sell 101 5).1 (by decide),
   (claim_C4_silent_noops _ OrderType.FillAndKill 2 Side.Sell 200 5).2.1 rfl (by decide),
   (claim_C4_silent_noops _ OrderType.GoodTillCancel 7 Side.Buy 100 5).2.2.1 (by decide),
   (claim_C4_silent_noops _ OrderType.GoodTillCancel 7 Side.Buy 100 5).2.2.2 (by decide)⟩

/-- Claim C5: for every book state containing an order with the given id,
modify (MatchOrder) is observationally equal to reading the existing order's
type, cancelling it, and re-submitting via AddOrder with that type and the
modify event's fields; the re-submitted order is appended at the tail of the
FIFO at its target level (time priority is forfeit); and if the preserved
type is FillAndKill and the re-submitted order does not cross, it is dropped
without resting. -/
theorem claim_C5_modify_decomposition (b : OrderBook) (orderId : OrderId) (s : Side)
    (p : Price) (q : Quantity) (existingOrder : Order)
    (h : b.findOrder orderId = some existingOrder) :
    (b.MatchOrder orderId s p q =
      (b.CancelOrder orderId).AddOrder existingOrder.orderType orderId s p q) ∧
    ((if s = Side.Buy
        then levelAt (insertOrder (b.CancelOrder orderId)
          ⟨existingOrder.orderType, orderId, s, p, q, q⟩).bids p
        else levelAt (insertOrder (b.CancelOrder orderId)
          ⟨existingOrder.orderType, orderId, s, p, q, q⟩).asks p).getLast? =
      some ⟨existingOrder.orderType, orderId, s, p, q, q⟩) ∧
    (existingOrder.orderType = OrderType.FillAndKill →
      (b.CancelOrder orderId).CanMatch s p = false →
      b.MatchOrder orderId s p q = (b.CancelOrder orderId, [])) := by
  refine ⟨MatchOrder_of_some h, ?_, ?_⟩
  · cases s with
    | Buy =>
      rw [if_pos rfl, insertOrder_buy rfl]
      exact insertBid_tail _ _
    | Sell =>
      rw [if_neg (by intro hc; cases hc), insertOrder_sell rfl]
      exact insertAsk_tail _ _
  · intro hfak hcm
    rw [MatchOrder_of_some h, AddOrder_of_fak hfak hcm]

theorem claim_C5_modify_decomposition_witness :
    ((runOps [Op.add OrderType.GoodTillCancel 1 Side.Buy 100 5]).MatchOrder 1
        Side.Buy 101 7 =
      ((runOps [Op.add OrderType.GoodTillCancel 1 Side.Buy 100 5]).CancelOrder 1).AddOrder
        OrderType.GoodTillCancel 1 Side.Buy 101 7) ∧
    ((levelAt (insertOrder
        ((runOps [Op.add OrderType.GoodTillCancel 1 Side.Buy 100 5]).CancelOrder 1)
        ⟨OrderType.GoodTillCancel, 1, Side.Buy, 101, 7, 7⟩).bids 101).getLast? =
      some ⟨OrderType.GoodTillCancel, 1, Side.Buy, 101, 7, 7⟩) ∧
    ((OrderBook.mk [((100 : Price), [⟨OrderType.FillAndKill, 1, Side.Buy, 100, 5, 5⟩])]
        []).MatchOrder 1 Side.Buy 50 5 =
      ((OrderBook.mk [((100 : Price), [⟨OrderType.FillAndKill, 1, Side.Buy, 100, 5, 5⟩])]
        []).CancelOrder 1, [])) :=
  ⟨(claim_C5_modify_decomposition
      (runOps [Op.add OrderType.GoodTillCancel 1 Side.Buy 100 5]) 1 Side.Buy 101 7
      ⟨OrderType.GoodTillCancel, 1, Side.Buy, 100, 5, 5⟩ (by decide)).1,
   (claim_C5_modify_decomposition
      (runOps [Op.add OrderType.GoodTillCancel 1 Side.Buy 100 5]) 1 Side.Buy 101 7
      ⟨OrderType.GoodTillCancel, 1, Side.Buy, 100, 5, 5⟩ (by decide)).2.1,
   (claim_C5_modify_decomposition
      (OrderBook.mk [((100 : Price), [⟨OrderType.FillAndKill, 1, Side.Buy, 100, 5, 5⟩])] [])
      1 Side.Buy 50 5
      ⟨OrderType.FillAndKill, 1, Side.Buy, 100, 5, 5⟩ (by decide)).2.2 rfl (by decide)⟩

/-- Claim C6 (scenario S5): starting from an empty book, after
add(1, GoodTillCancel, Buy, 100, 4) followed by
add(2, FillAndKill, Sell, 100, 10), the second add returns exactly one trade
with bid leg (1, 100, 4) and ask leg (2, 100, 4); order 1 is fully filled
and released, order 2 (remaining 6) is cancelled by the post-match
FillAndKill sweep, and Size = 0 afterwards (the final book is empty). -/
theorem claim_C6_fak_scenario :
    (runOps [Op.add OrderType.GoodTillCancel 1 Side.Buy 100 4]).AddOrder
        OrderType.FillAndKill 2 Side.Sell 100 10 =
      (emptyBook, [⟨⟨1, 100, 4⟩, ⟨2, 100, 4⟩⟩]) ∧
    (runOps [Op.add OrderType.GoodTillCancel 1 Side.Buy 100 4,
             Op.add OrderType.FillAndKill 2 Side.Sell 100 10]).Size = 0 := by
  decide

/-- Claim C7: matching obeys price-time priority: within a price level the
front (earliest-arrived) orders of the two best levels match first and each
match quantity is the minimum of the two heads' remaining quantities (the
first conjunct: the first trade the inner loop emits is between the two
heads for min of their remainders); and the scenario S3 — add(1, Buy, 100, 5),
add(2, Buy, 100, 5), add(3, Sell, 100, 7) — yields trades of 5 against bid 1
then 2 against bid 2, leaving order 2 resting with remaining 3 and
Size = 1. -/
theorem claim_C7_price_time_priority :
    (∀ (bid ask : Order) (restB restA : List Order), ∃ restT,
      (matchInner (bid :: restB) (ask :: restA)).2.2 =
        Trade.mk ⟨bid.orderId, bid.price, min bid.remainingQuantity ask.remainingQuantity⟩
          ⟨ask.orderId, ask.price, min bid.remainingQuantity ask.remainingQuantity⟩ ::
          restT) ∧
    ((runOps [Op.add OrderType.GoodTillCancel 1 Side.Buy 100 5,
              Op.add OrderType.GoodTillCancel 2 Side.Buy 100 5]).AddOrder
        OrderType.GoodTillCancel 3 Side.Sell 100 7 =
      (⟨[(100, [⟨OrderType.GoodTillCancel, 2, Side.Buy, 100, 5, 3⟩])], []⟩,
       [⟨⟨1, 100, 5⟩, ⟨3, 100, 5⟩⟩, ⟨⟨2, 100, 2⟩, ⟨3, 100, 2⟩⟩]) ∧
      (runOps [Op.add OrderType.GoodTillCancel 1 Side.Buy 100 5,
               Op.add OrderType.GoodTillCancel 2 Side.Buy 100 5,
               Op.add OrderType.GoodTillCancel 3 Side.Sell 100 7]).Size = 1) := by
  constructor
  · intro bid ask restB restA
    have hlen : (bid :: restB).length + (ask :: restA).length =
        restB.length + restA.length + 1 + 1 := by
      simp only [List.length_cons]
      omega
    rw [matchInner, hlen]
    simp only [matchInnerF]
    split
    · exact ⟨[], rfl⟩
    · exact ⟨_, rfl⟩
  · constructor <;> decide

/-- Claim C8: Order::Fill has precondition q ≤ remaining_qty and signals a
fatal error (throws, modeled by none) when it is violated; and within
MatchOrders this error branch is unreachable: every call passes
q = min(bid.remaining, ask.remaining), so both Fill calls of the matching
step always satisfy the precondition and the step is built from their
successful results. -/
theorem claim_C8_fill_precondition :
    (∀ (o : Order) (q : Quantity), o.remainingQuantity < q → o.Fill q = none) ∧
    (∀ (o : Order) (q : Quantity), q ≤ o.remainingQuantity →
      o.Fill q = some { o with remainingQuantity := o.remainingQuantity - q }) ∧
    (∀ (bid ask : Order) (restB restA : List Order), ∃ bidF askF : Order,
      bid.Fill (min bid.remainingQuantity ask.remainingQuantity) = some bidF ∧
      ask.Fill (min bid.remainingQuantity ask.remainingQuantity) = some askF ∧
      matchStep bid ask restB restA =
        ((if bidF.IsFilled then restB else bidF :: restB,
          if askF.IsFilled then restA else askF :: restA),
         ⟨⟨bid.orderId, bid.price, min bid.remainingQuantity ask.remainingQuantity⟩,
          ⟨ask.orderId, ask.price, min bid.remainingQuantity ask.remainingQuantity⟩⟩)) := by
  have h1 : ∀ (o : Order) (q : Quantity), o.remainingQuantity < q → o.Fill q = none := by
    intro o q h
    rw [Order.Fill, if_pos h]
  have h2 : ∀ (o : Order) (q : Quantity), q ≤ o.remainingQuantity →
      o.Fill q = some { o with remainingQuantity := o.remainingQuantity - q } := by
    intro o q h
    rw [Order.Fill, if_neg (not_lt.mpr h)]
  refine ⟨h1, h2, ?_⟩
  intro bid ask restB restA
  exact ⟨_, _, h2 bid _ (Nat.min_le_left _ _), h2 ask _ (Nat.min_le_right _ _), rfl⟩

theorem claim_C8_fill_precondition_witness :
    (⟨OrderType.GoodTillCancel, 1, Side.Buy, 100, 5, 3⟩ : Order).Fill 5 = none ∧
    (⟨OrderType.GoodTillCancel, 1, Side.Buy, 100, 5, 3⟩ : Order).Fill 2 =
      some ⟨OrderType.GoodTillCancel, 1, Side.Buy, 100, 5, 1⟩ :=
  ⟨claim_C8_fill_precondition.1 ⟨OrderType.GoodTillCancel, 1, Side.Buy, 100, 5, 3⟩ 5
      (by decide),
   claim_C8_fill_precondition.2.1 ⟨OrderType.GoodTillCancel, 1, Side.Buy, 100, 5, 3⟩ 2
      (by decide)⟩

/-- Claim C9 counterexample: GetOrderInfos accumulates the level quantity in
Quantity (std::uint32_t), so for the reachable book holding two buy orders
of 4294967295 at price 100 the reported level quantity is
4294967294 = (2 * 4294967295) mod 2^32, not the sum of the remaining
quantities 8589934590: the snapshot does not return the sum as claimed. -/
theorem claim_C9_sum_overflow_counterexample :
    ((runOps [Op.add OrderType.GoodTillCancel 1 Side.Buy 100 4294967295,
              Op.add OrderType.GoodTillCancel 2 Side.Buy 100 4294967295]).bids.map
        (fun pl => (pl.2.map Order.remainingQuantity).sum)) = [8589934590] ∧
    ((runOps [Op.add OrderType.GoodTillCancel 1 Side.Buy 100 4294967295,
              Op.add OrderType.GoodTillCancel 2 Side.Buy 100 4294967295]).GetOrderInfos.bids.map
        LevelInfo.quantity) = [4294967294] ∧
    (8589934590 : Nat) ≠ 4294967294 := by
  decide

/-- Claim C9, amended: for every reachable book, GetOrderInfos returns, for
each non-empty price level on each side, the pair of the price and the sum
of the remaining quantities of the orders at that level REDUCED MODULO 2^32
(the sum is computed in 32-bit unsigned arithmetic); the bid levels are
listed in strictly descending and the ask levels in strictly ascending price
order, and no stored level is empty. -/
theorem claim_C9_snapshot_amended (b : OrderBook) (hr : Reachable b) :
    b.GetOrderInfos =
      ⟨b.bids.map (fun pl =>
          ⟨pl.1, (pl.2.map Order.remainingQuantity).sum % quantityModulus⟩),
       b.asks.map (fun pl =>
          ⟨pl.1, (pl.2.map Order.remainingQuantity).sum % quantityModulus⟩)⟩ ∧
    (b.GetOrderInfos.bids.map LevelInfo.price).Pairwise (fun a c => c < a) ∧
    (b.GetOrderInfos.asks.map LevelInfo.price).Pairwise (fun a c => a < c) ∧
    (∀ pl ∈ b.bids, pl.2 ≠ []) ∧ (∀ pl ∈ b.asks, pl.2 ≠ []) := by
  have hInv := Reachable_inv hr
  refine ⟨?_, ?_, ?_, hInv.neB, hInv.neA⟩
  · rw [OrderBook.GetOrderInfos]
    simp only [levelQuantity_eq]
  · have h2 := List.pairwise_map.mp hInv.sortedB
    rw [OrderBook.GetOrderInfos]
    simp only [List.map_map]
    exact List.pairwise_map.mpr h2
  · have h2 := List.pairwise_map.mp hInv.sortedA
    rw [OrderBook.GetOrderInfos]
    simp only [List.map_map]
    exact List.pairwise_map.mpr h2

theorem claim_C9_snapshot_amended_witness :
    (runOps [Op.add OrderType.GoodTillCancel 1 Side.Buy 100 5,
             Op.add OrderType.GoodTillCancel 2 Side.Buy 90 3,
             Op.add OrderType.GoodTillCancel 3 Side.Sell 110 2]).GetOrderInfos =
      ⟨(runOps [Op.add OrderType.GoodTillCancel 1 Side.Buy 100 5,
                Op.add OrderType.GoodTillCancel 2 Side.Buy 90 3,
                Op.add OrderType.GoodTillCancel 3 Side.Sell 110 2]).bids.map (fun pl =>
          ⟨pl.1, (pl.2.map Order.remainingQuantity).sum % quantityModulus⟩),
       (runOps [Op.add OrderType.GoodTillCancel 1 Side.Buy 100 5,
                Op.add OrderType.GoodTillCancel 2 Side.Buy 90 3,
                Op.add OrderType.GoodTillCancel 3 Side.Sell 110 2]).asks.map (fun pl =>
          ⟨pl.1, (pl.2.map Order.remainingQuantity).sum % quantityModulus⟩)⟩ ∧
    ((runOps [Op.add OrderType.GoodTillCancel 1 Side.Buy 100 5,
              Op.add OrderType.GoodTillCancel 2 Side.Buy 90 3,
              Op.add OrderType.GoodTillCancel 3 Side.Sell 110 2]).GetOrderInfos.bids.map
        LevelInfo.price).Pairwise (fun a c => c < a) ∧
    ((runOps [Op.add OrderType.GoodTillCancel 1 Side.Buy 100 5,
              Op.add OrderType.GoodTillCancel 2 Side.Buy 90 3,
              Op.add OrderType.GoodTillCancel 3 Side.Sell 110 2]).GetOrderInfos.asks.map
        LevelInfo.price).Pairwise (fun a c => a < c) ∧
    (∀ pl ∈ (runOps [Op.add OrderType.GoodTillCancel 1 Side.Buy 100 5,
                     Op.add OrderType.GoodTillCancel 2 Side.Buy 90 3,
                     Op.add OrderType.GoodTillCancel 3 Side.Sell 110 2]).bids, pl.2 ≠ []) ∧
    (∀ pl ∈ (runOps [Op.add OrderType.GoodTillCancel 1 Side.Buy 100 5,
                     Op.add OrderType.GoodTillCancel 2 Side.Buy 90 3,
                     Op.add OrderType.GoodTillCancel 3 Side.Sell 110 2]).asks, pl.2 ≠ []) :=
  claim_C9_snapshot_amended _ (reachable_runOps _)

/-- Claim C10: for every reachable book and every add call, every trade the
call emits has its bid leg's recorded price (the bid order's own limit
price) greater than or equal to its ask leg's recorded price: trades are
emitted only while the best bid price is at least the best ask price, and
each level's orders carry that level's price. -/
theorem claim_C10_trade_prices (b : OrderBook) (t : OrderType) (orderId : OrderId)
    (s : Side) (p : Price) (q : Quantity) (hr : Reachable b) :
    ∀ tr ∈ (b.AddOrder t orderId s p q).2, tr.askTrade.price ≤ tr.bidTrade.price :=
  (AddOrder_spec b t orderId s p q (Reachable_inv hr)).2.2

theorem claim_C10_trade_prices_witness :
    (⟨⟨1, 100, 3⟩, ⟨2, 90, 3⟩⟩ : Trade).askTrade.price ≤
      (⟨⟨1, 100, 3⟩, ⟨2, 90, 3⟩⟩ : Trade).bidTrade.price :=
  claim_C10_trade_prices (runOps [Op.add OrderType.GoodTillCancel 1 Side.Buy 100 5])
    OrderType.GoodTillCancel 2 Side.Sell 90 3 (reachable_runOps _) _ (by decide)

/-! Additional end-to-end scenarios of section 8 of the spec, checked by
computation: S1/S2 (simple cross), S4 (a FillAndKill that cannot cross is
dropped) and S6 (modify preserves the type but forfeits time priority). -/

theorem scenario_simple_cross :
    (emptyBook.AddOrder OrderType.GoodTillCancel 1 Side.Buy 100 10).1.AddOrder
      OrderType.GoodTillCancel 2 Side.Sell 100 7 =
    (⟨[(100, [⟨OrderType.GoodTillCancel, 1, Side.Buy, 100, 10, 3⟩])], []⟩,
     [⟨⟨1, 100, 7⟩, ⟨2, 100, 7⟩⟩]) := by decide

theorem scenario_fak_no_cross_dropped :
    runOps [Op.add OrderType.GoodTillCancel 1 Side.Buy 99 10,
            Op.add OrderType.FillAndKill 2 Side.Sell 100 5] =
    ⟨[(99, [⟨OrderType.GoodTillCancel, 1, Side.Buy, 99, 10, 10⟩])], []⟩ := by decide

theorem scenario_modify_forfeits_priority :
    (runOps [Op.add OrderType.GoodTillCancel 1 Side.Buy 100 5,
             Op.add OrderType.GoodTillCancel 2 Side.Buy 100 5,
             Op.modify 1 Side.Buy 100 5]).AddOrder
      OrderType.GoodTillCancel 3 Side.Sell 100 5 =
    (⟨[(100, [⟨OrderType.GoodTillCancel, 1, Side.Buy, 100, 5, 5⟩])], []⟩,
     [⟨⟨2, 100, 5⟩, ⟨3, 100, 5⟩⟩]) := by decide

end OrderTradeBook
